import Mathlib

set_option maxRecDepth 100000

/-!
Verification development for the PyBot repository (`src/main.py`).

The heart of the program is `safe_eval_expr` (main.py lines 90-132): it strips
the input, parses it with Python's `ast.parse(expr, mode="eval")`, and then
walks the resulting tree with `_eval`, which accepts only numeric constants,
binary operators found in `_ALLOWED_OPERATORS`, and unary `+`/`-`; everything
else raises `ValueError`.  The conversational layer `chatbot_response`
(lines 163-274) dispatches inputs to this evaluator.

The development below is a shallow embedding of that code:
* Python numbers are modelled by `Value`: arbitrary-precision integers as `ℤ`,
  floats idealised as exact rationals `ℚ` (no claim in scope depends on IEEE
  rounding), booleans (which Python treats as integers inside arithmetic), and
  a `VComplex` tag for complex results whose components no claim inspects.
* `ast.parse` is modelled by an executable tokenizer (`pyTokenize`) and a
  recursive-descent parser (`pyParseExpr` and friends) covering the fragment of
  Python's expression grammar reachable through this program: numeric literals
  (decimal with underscores and exponents, hex/octal/binary, floats), the
  operators `+ - * / // % ** ^`, parentheses, identifiers, string literals,
  calls, commas, semicolons and `#` comments.  Characters outside that set
  (e.g. `&`, `[`, `=`) are tokenizer errors in the model; in CPython they lex
  but invariably lead to a parse error or an `_eval` rejection, so the
  success/failure verdict agrees.  Imaginary literals (`1j`) are likewise not
  modelled; CPython rejects them one stage later (non-numeric constant), again
  with the same failure verdict.  Newlines and unusual whitespace are treated
  as plain whitespace; the chat loop reads input with `input()`, which can
  never contain a newline.
* Rational arithmetic is written with `mkRat`/`Rat.divInt` style operations
  (`qAdd` etc.) so that every definition evaluates inside the kernel.
-/

/-- Arithmetic on `ℚ` written so that it reduces in the kernel: addition via
`mkRat` on numerators and denominators. -/
def qAdd (a b : ℚ) : ℚ := mkRat (a.num * b.den + b.num * a.den) (a.den * b.den)

/-- Kernel-reducible subtraction on `ℚ`. -/
def qSub (a b : ℚ) : ℚ := mkRat (a.num * b.den - b.num * a.den) (a.den * b.den)

/-- Kernel-reducible multiplication on `ℚ`. -/
def qMul (a b : ℚ) : ℚ := mkRat (a.num * b.num) (a.den * b.den)

/-- Kernel-reducible division on `ℚ` (division by zero yields `0`, a case the
evaluator guards against before dividing). -/
def qDiv (a b : ℚ) : ℚ := Rat.divInt (a.num * b.den) (a.den * b.num)

/-- Kernel-reducible negation on `ℚ`. -/
def qNeg (a : ℚ) : ℚ := mkRat (-a.num) a.den

/-- Kernel-reducible `ℚ` of an integer. -/
def qOfInt (z : ℤ) : ℚ := mkRat z 1

/-- Kernel-reducible natural-number power on `ℚ`. -/
def qNpow (x : ℚ) : ℕ → ℚ
  | 0 => 1
  | n + 1 => qMul x (qNpow x n)

/-- Kernel-reducible integer power on `ℚ` (negative exponents via reciprocal;
only reached with a nonzero base). -/
def qZpow (x : ℚ) : ℤ → ℚ
  | .ofNat n => qNpow x n
  | .negSucc n => qDiv 1 (qNpow x (n + 1))

/-- Python values that can flow through `_eval`: `bool` (a subclass of `int`
in Python, hence accepted by the `isinstance(node.value, (int, float))` test),
arbitrary-precision `int`, `float` (idealised as an exact rational), and a tag
for `complex` results, whose components no claim inspects. -/
inductive Value where
  | VBool (b : Bool)
  | VInt (z : ℤ)
  | VFloat (q : ℚ)
  | VComplex
deriving DecidableEq, Repr

/-- The errors `safe_eval_expr` can raise.  `invalidExpr` wraps the
`ValueError(f"Invalid expression: {e}")` re-raise of a parse-time
`SyntaxError` (the carried detail string is the model's own diagnostic);
the other constructors carry the exact message texts of main.py and of
Python's arithmetic exceptions. -/
inductive EvalError where
  | emptyExpr
  | invalidExpr (detail : String)
  | onlyNumericConst
  | binOpNotSupported (op : String)
  | unaryOpNotSupported (op : String)
  | unsupportedNode (ty : String)
  | zeroDivision (msg : String)
  | typeMismatch (msg : String)
deriving DecidableEq, Repr

/-- The error taxonomy of the specification (§7). -/
inductive ErrKind where
  | emptyExpressionError
  | syntaxError
  | unsupportedConstructError
  | divisionByZeroError
  | typeErrorKind
deriving DecidableEq, Repr

/-- Classify each concrete error into the specification's taxonomy:
parse-time failures are `SyntaxError`s; the `_eval` rejections of names,
calls, non-numeric constants and unlisted operators are
`UnsupportedConstructError`s. -/
def EvalError.kind : EvalError → ErrKind
  | .emptyExpr => .emptyExpressionError
  | .invalidExpr _ => .syntaxError
  | .onlyNumericConst => .unsupportedConstructError
  | .binOpNotSupported _ => .unsupportedConstructError
  | .unaryOpNotSupported _ => .unsupportedConstructError
  | .unsupportedNode _ => .unsupportedConstructError
  | .zeroDivision _ => .divisionByZeroError
  | .typeMismatch _ => .typeErrorKind

/-- The text `str(e)` of each error, as interpolated by
`chatbot_response`'s `f"Calculator error: {e}"`. -/
def errMessage : EvalError → String
  | .emptyExpr => "Empty expression"
  | .invalidExpr d => "Invalid expression: " ++ d
  | .onlyNumericConst => "Only numeric constants are allowed"
  | .binOpNotSupported op => "Operator " ++ op ++ " not supported"
  | .unaryOpNotSupported op => "Unary operator " ++ op ++ " not supported"
  | .unsupportedNode ty => "Unsupported expression type: " ++ ty
  | .zeroDivision m => m
  | .typeMismatch m => m

/-- Decidable equality on `Except`, so that concrete runs of the evaluator
can be checked by `decide`. -/
instance {ε α : Type} [DecidableEq ε] [DecidableEq α] : DecidableEq (Except ε α) := fun x y =>
  match x, y with
  | .ok a, .ok b =>
      match decEq a b with
      | isTrue h => isTrue (congrArg Except.ok h)
      | isFalse h => isFalse (fun hh => h (Except.ok.inj hh))
  | .error a, .error b =>
      match decEq a b with
      | isTrue h => isTrue (congrArg Except.error h)
      | isFalse h => isFalse (fun hh => h (Except.error.inj hh))
  | .ok _, .error _ => isFalse (fun hh => Except.noConfusion hh)
  | .error _, .ok _ => isFalse (fun hh => Except.noConfusion hh)

/-- Binary operator kinds producible by the modelled grammar.  `bitXor`
(`^`) parses but is deliberately absent from `_ALLOWED_OPERATORS`. -/
inductive BinKind where
  | add | sub | mul | div | floorDiv | mod | pow | bitXor
deriving DecidableEq, Repr

/-- Unary operator kinds (`ast.UAdd`, `ast.USub`). -/
inductive UnKind where
  | uAdd | uSub
deriving DecidableEq, Repr

/-- Membership in `_ALLOWED_OPERATORS` (main.py lines 53-63): every
arithmetic operator is mapped there; bitwise xor is not. -/
def allowedBin : BinKind → Bool
  | .bitXor => false
  | _ => true

/-- `repr(type(node.op))` for each binary operator class, as interpolated
into the `f"Operator {op_type} not supported"` message. -/
def binClassName : BinKind → String
  | .add => "<class \x27ast.Add\x27>"
  | .sub => "<class \x27ast.Sub\x27>"
  | .mul => "<class \x27ast.Mult\x27>"
  | .div => "<class \x27ast.Div\x27>"
  | .floorDiv => "<class \x27ast.FloorDiv\x27>"
  | .mod => "<class \x27ast.Mod\x27>"
  | .pow => "<class \x27ast.Pow\x27>"
  | .bitXor => "<class \x27ast.BitXor\x27>"

/-- Python coerces `bool` operands to `int` inside arithmetic
(`True + 1 == 2`). -/
def Value.asArith : Value → Value
  | .VBool b => .VInt (if b then 1 else 0)
  | v => v

/-- The rational carried by an `int` or `float` value (junk `0` on the other
constructors, which every caller excludes first). -/
def Value.toQ : Value → ℚ
  | .VInt z => qOfInt z
  | .VFloat q => q
  | _ => 0

/-- Python's zero test on a divisor (after bool-to-int coercion). -/
def isZeroValue (v : Value) : Bool :=
  match v.asArith with
  | .VInt z => z = 0
  | .VFloat q => q.num = 0
  | _ => false

/-- Shared shape of `operator.add`/`sub`/`mul`: integer result on two ints,
complex if either side is complex, float otherwise.  Expects bool operands to
have been coerced away already. -/
def applyArith (f : ℤ → ℤ → ℤ) (g : ℚ → ℚ → ℚ) (a b : Value) : Value :=
  match a, b with
  | .VInt x, .VInt y => .VInt (f x y)
  | .VComplex, _ => .VComplex
  | _, .VComplex => .VComplex
  | x, y => .VFloat (g x.toQ y.toQ)

/-- `operator.truediv`: always float-valued on real operands; raises
`ZeroDivisionError` on a zero divisor.  A complex operand propagates
(a zero complex divisor is not modelled: `VComplex` carries no components). -/
def pyDivOp (a b : Value) : Except EvalError Value :=
  match a, b with
  | .VComplex, _ => .ok .VComplex
  | _, .VComplex => .ok .VComplex
  | .VInt x, .VInt y =>
      if y = 0 then .error (.zeroDivision "division by zero")
      else .ok (.VFloat (qDiv (qOfInt x) (qOfInt y)))
  | x, y =>
      if y.toQ.num = 0 then .error (.zeroDivision "float division by zero")
      else .ok (.VFloat (qDiv x.toQ y.toQ))

/-- `operator.floordiv`: floor semantics (`Int.fdiv` on integers, a real
floor on floats); `ZeroDivisionError` on a zero divisor, `TypeError` on a
complex operand. -/
def pyFloorDivOp (a b : Value) : Except EvalError Value :=
  match a, b with
  | .VComplex, _ => .error (.typeMismatch "can\x27t take floor of complex number.")
  | _, .VComplex => .error (.typeMismatch "can\x27t take floor of complex number.")
  | .VInt x, .VInt y =>
      if y = 0 then .error (.zeroDivision "integer division or modulo by zero")
      else .ok (.VInt (Int.fdiv x y))
  | x, y =>
      if y.toQ.num = 0 then .error (.zeroDivision "float floor division by zero")
      else .ok (.VFloat (qOfInt (qDiv x.toQ y.toQ).floor))

/-- `operator.mod`: sign follows the divisor (`Int.fmod` on integers,
`x - y * floor (x / y)` on floats); `ZeroDivisionError` on a zero divisor,
`TypeError` on a complex operand. -/
def pyModOp (a b : Value) : Except EvalError Value :=
  match a, b with
  | .VComplex, _ => .error (.typeMismatch "can\x27t mod complex numbers.")
  | _, .VComplex => .error (.typeMismatch "can\x27t mod complex numbers.")
  | .VInt x, .VInt y =>
      if y = 0 then .error (.zeroDivision "integer division or modulo by zero")
      else .ok (.VInt (Int.fmod x y))
  | x, y =>
      if y.toQ.num = 0 then .error (.zeroDivision "float modulo")
      else .ok (.VFloat (qSub x.toQ (qMul y.toQ (qOfInt (qDiv x.toQ y.toQ).floor))))

/-- Placeholder for real-valued float powers: exact when the exponent is an
integer; the genuinely irrational case (fractional exponent, nonnegative
base) is not value-modelled — no claim inspects such a value — and is mapped
to `0`. -/
def qPowFloat (x y : ℚ) : ℚ :=
  if y.den = 1 then qZpow x y.num else 0

/-- `operator.pow`, following Python 3 semantics: `int ** nonneg int` is an
int; a negative integer exponent gives a float reciprocal; `0` to a negative
power raises `ZeroDivisionError`; a negative base with a fractional exponent
silently yields a `complex` number; complex operands propagate. -/
def pyPowOp (a b : Value) : Except EvalError Value :=
  match a, b with
  | .VComplex, _ => .ok .VComplex
  | _, .VComplex => .ok .VComplex
  | .VInt x, .VInt y =>
      if 0 ≤ y then .ok (.VInt (x ^ y.toNat))
      else if x = 0 then .error (.zeroDivision "0.0 cannot be raised to a negative power")
      else .ok (.VFloat (qZpow (qOfInt x) y))
  | a', b' =>
      let x := a'.toQ
      let y := b'.toQ
      if x.num = 0 then
        if y.num < 0 then .error (.zeroDivision "0.0 cannot be raised to a negative power")
        else .ok (.VFloat (qPowFloat x y))
      else if x.num < 0 && y.den ≠ 1 then .ok .VComplex
      else .ok (.VFloat (qPowFloat x y))

/-- The pure function `_ALLOWED_OPERATORS[op_type]` applied to two evaluated
operands (bools coerce to ints first, as in Python).  The `bitXor` case is
unreachable: `_eval` checks membership in the table before applying. -/
def applyBin (op : BinKind) (a0 b0 : Value) : Except EvalError Value :=
  let a := a0.asArith
  let b := b0.asArith
  match op with
  | .add => .ok (applyArith (· + ·) qAdd a b)
  | .sub => .ok (applyArith (· - ·) qSub a b)
  | .mul => .ok (applyArith (· * ·) qMul a b)
  | .div => pyDivOp a b
  | .floorDiv => pyFloorDivOp a b
  | .mod => pyModOp a b
  | .pow => pyPowOp a b
  | .bitXor => .error (.binOpNotSupported (binClassName .bitXor))

/-- `operator.pos` / `operator.neg` (both present in `_ALLOWED_OPERATORS`);
`+True` is the int `1` in Python, and negation propagates through complex. -/
def applyUn (op : UnKind) (v0 : Value) : Except EvalError Value :=
  match op, v0.asArith with
  | _, .VComplex => .ok .VComplex
  | .uAdd, v => .ok v
  | .uSub, .VInt z => .ok (.VInt (-z))
  | .uSub, .VFloat q => .ok (.VFloat (qNeg q))
  | .uSub, .VBool b => .ok (.VInt (-(if b then 1 else 0)))

/-- Constants as they appear in `ast.Constant.value` for this fragment:
numbers, strings, booleans and `None`. -/
inductive PyConst where
  | intC (z : ℤ)
  | floatC (q : ℚ)
  | strC (s : String)
  | boolC (b : Bool)
  | noneC
deriving DecidableEq, Repr

/-- The abstract syntax trees `ast.parse` can hand to `_eval` in the modelled
fragment: constants, binary and unary operations, names and calls.  `_eval`
rejects a `Call` without ever reading its argument subtrees, so the model
keeps only their number (the parser still consumes the argument tokens). -/
inductive PyAst where
  | const (c : PyConst)
  | binOp (op : BinKind) (l r : PyAst)
  | unaryOp (op : UnKind) (e : PyAst)
  | name (id : String)
  | call (f : PyAst) (nargs : ℕ)

/-- `repr(type(node))` for the two node classes `_eval` reports in its
fallback `Unsupported expression type` message. -/
def nameClassName : String := "<class \x27ast.Name\x27>"

/-- `repr(ast.Call)` as printed in the fallback message. -/
def callClassName : String := "<class \x27ast.Call\x27>"

/-- The recursive `_eval` of `safe_eval_expr` (main.py lines 107-130):
numeric constants (including bools, since `isinstance(True, int)` holds)
evaluate to themselves, other constants raise; a `BinOp` first checks its
operator against `_ALLOWED_OPERATORS`, then evaluates left before right;
a `UnaryOp` evaluates its operand; every other node kind raises
`Unsupported expression type`. -/
def evalAst : PyAst → Except EvalError Value
  | .const (.intC z) => .ok (.VInt z)
  | .const (.floatC q) => .ok (.VFloat q)
  | .const (.boolC b) => .ok (.VBool b)
  | .const (.strC _) => .error .onlyNumericConst
  | .const .noneC => .error .onlyNumericConst
  | .binOp op l r =>
      if allowedBin op then
        match evalAst l with
        | .error e => .error e
        | .ok lv =>
            match evalAst r with
            | .error e => .error e
            | .ok rv => applyBin op lv rv
      else .error (.binOpNotSupported (binClassName op))
  | .unaryOp op e =>
      match evalAst e with
      | .error err => .error err
      | .ok v => applyUn op v
  | .name _ => .error (.unsupportedNode nameClassName)
  | .call _ _ => .error (.unsupportedNode callClassName)

/-- Syntactic check that a tree uses only the constructs `_eval` accepts:
numeric constants (ints, floats, bools) combined by allow-listed binary
operators and unary sign. -/
def astArithOnly : PyAst → Bool
  | .const (.intC _) => true
  | .const (.floatC _) => true
  | .const (.boolC _) => true
  | .const (.strC _) => false
  | .const .noneC => false
  | .binOp op l r => allowedBin op && astArithOnly l && astArithOnly r
  | .unaryOp _ e => astArithOnly e
  | .name _ => false
  | .call _ _ => false

/-- Python's `str.isspace` character set (used by `str.strip`); the CPython
tokenizer proper skips only space, tab and formfeed, but input read by
`input()` can contain none of the exotic cases, so the model uses one
whitespace notion throughout. -/
def pyWsChar (c : Char) : Bool :=
  ([' ', '\t', '\n', '\r', '\x0b', '\x0c', '\x1c', '\x1d', '\x1e', '\x1f',
    '\x85', '\xa0', '\u1680', '\u2028', '\u2029', '\u202F', '\u205F', '\u3000'].contains c)
  || ('\u2000' ≤ c && c ≤ '\u200A')

/-- `str.strip()`: drop whitespace from both ends. -/
def pyStrip (cs : List Char) : List Char :=
  ((cs.dropWhile pyWsChar).reverse.dropWhile pyWsChar).reverse

/-- Characters that may continue an identifier (ASCII model of Python's
`\w`-style identifier continuation). -/
def identChar (c : Char) : Bool := c.isAlpha || c.isDigit || c = '_'

/-- Characters that may start an identifier. -/
def identStart (c : Char) : Bool := c.isAlpha || c = '_'

/-- Digits or the underscore separators Python permits inside numeric
literals. -/
def numChar (c : Char) : Bool := c.isDigit || c = '_'

/-- Hexadecimal digit test. -/
def isHexDigit (c : Char) : Bool :=
  c.isDigit || ('a' ≤ c && c ≤ 'f') || ('A' ≤ c && c ≤ 'F')

/-- Octal digit test. -/
def isOctDigit (c : Char) : Bool := '0' ≤ c && c ≤ '7'

/-- Binary digit test. -/
def isBinDigit (c : Char) : Bool := c = '0' || c = '1'

/-- Numeric value of a (hex) digit character. -/
def hexVal (c : Char) : ℕ :=
  if c.isDigit then c.toNat - 48 else (c.toLower.toNat - 97) + 10

/-- Value of a digit string (underscores already removed) in base `b`. -/
def digitsToNatBase (b : ℕ) (ds : List Char) : ℕ :=
  ds.foldl (fun a c => b * a + hexVal c) 0

/-- Python's `digitpart`: a nonempty digit run in which each underscore sits
between two digits (`1_000` is fine, `_1`, `1_`, `1__0` are not). -/
def digitGroupOk (isD : Char → Bool) : List Char → Bool
  | [] => false
  | [c] => isD c
  | c :: '_' :: rest => isD c && digitGroupOk isD rest
  | c :: rest => isD c && digitGroupOk isD rest

/-- Exact rational value of a decimal float literal with integer digits
`ipd`, fractional digits `fpd` and exponent `epn` (sign `negExp`).  Python
floats are IEEE doubles; the claims in scope only inspect exactly
representable results, so the idealisation is harmless. -/
def decimalFloatVal (ipd fpd : List Char) (negExp : Bool) (epn : ℕ) : ℚ :=
  let mant := qAdd (qOfInt (Int.ofNat (digitsToNatBase 10 ipd)))
    (qDiv (qOfInt (Int.ofNat (digitsToNatBase 10 fpd))) (qOfInt (Int.ofNat (10 ^ fpd.length))))
  if negExp then qDiv mant (qOfInt (Int.ofNat (10 ^ epn)))
  else qMul mant (qOfInt (Int.ofNat (10 ^ epn)))

/-- Does the list start with an identifier character (a numeric literal may
not run straight into one)? -/
def juxtaIdent : List Char → Bool
  | c :: _ => c.isAlpha || c = '_'
  | [] => false

/-- Python 3's prohibition of leading zeros in nonzero decimal integer
literals: a literal starting with `0` must consist of zeros only. -/
def leadingZeroBad : List Char → Bool
  | '0' :: t => !t.all (fun c => c = '0')
  | _ => false

/-- Final validation and value construction for a decimal literal whose
slices have been scanned: underscore placement, the `e`-exponent digit
group, Python 3's leading-zero prohibition on nonzero integer literals, and
the rule that a literal must not run into an identifier character. -/
def finishNumber (ip fp ep : List Char) (hasDot hasExp negExp : Bool)
    (rest : List Char) : Except String (PyConst × List Char) :=
  if juxtaIdent rest then .error "invalid decimal literal"
  else if ip.isEmpty && fp.isEmpty then .error "invalid decimal literal"
  else if !ip.isEmpty && !digitGroupOk Char.isDigit ip then .error "invalid decimal literal"
  else if !fp.isEmpty && !digitGroupOk Char.isDigit fp then .error "invalid decimal literal"
  else if hasExp && !digitGroupOk Char.isDigit ep then .error "invalid decimal literal"
  else
    let ipd := ip.filter (fun c => c ≠ '_')
    let fpd := fp.filter (fun c => c ≠ '_')
    let epd := ep.filter (fun c => c ≠ '_')
    if hasDot || hasExp then
      .ok (.floatC (decimalFloatVal ipd fpd negExp (digitsToNatBase 10 epd)), rest)
    else if leadingZeroBad ipd then
      .error "leading zeros in decimal integer literals are not permitted"
    else .ok (.intC (Int.ofNat (digitsToNatBase 10 ipd)), rest)

/-- Scan an optional `e`/`E` exponent after the mantissa of a decimal
literal (Python commits to the exponent: `1e` is an invalid literal, it
does not fall back to `1` followed by a name). -/
def lexExpPart (ip fp : List Char) (hasDot : Bool) (r2 : List Char) :
    Except String (PyConst × List Char) :=
  match r2 with
  | c :: r =>
      if c = 'e' || c = 'E' then
        match r with
        | s :: r' =>
            if s = '+' || s = '-' then
              finishNumber ip fp (r'.takeWhile numChar) hasDot true (s = '-')
                (r'.dropWhile numChar)
            else
              finishNumber ip fp (r.takeWhile numChar) hasDot true false
                (r.dropWhile numChar)
        | [] => .error "invalid decimal literal"
      else finishNumber ip fp [] hasDot false false r2
  | [] => finishNumber ip fp [] hasDot false false []

/-- Scan a decimal literal: integer digits, an optional fractional part,
then an optional exponent. -/
def lexDecimal (cs : List Char) : Except String (PyConst × List Char) :=
  let ip := cs.takeWhile numChar
  let r1 := cs.dropWhile numChar
  match r1 with
  | '.' :: r => lexExpPart ip (r.takeWhile numChar) true (r.dropWhile numChar)
  | _ => lexExpPart ip [] false r1

/-- Scan a radix-prefixed integer literal (`0x…`, `0o…`, `0b…`): Python
allows one underscore straight after the prefix and the usual separator
placement inside the digits. -/
def lexRadix (b : ℕ) (isD : Char → Bool) (lit : String) (cs : List Char) :
    Except String (PyConst × List Char) :=
  let ds := cs.takeWhile (fun c => isD c || c = '_')
  let rest := cs.dropWhile (fun c => isD c || c = '_')
  let core := match ds with
    | '_' :: t => t
    | t => t
  if digitGroupOk isD core then
    let juxta := match rest with
      | c :: _ => c.isAlpha || c = '_' || c.isDigit
      | [] => false
    if juxta then .error ("invalid digit in " ++ lit)
    else .ok (.intC (Int.ofNat (digitsToNatBase b (core.filter (fun c => c ≠ '_')))), rest)
  else .error ("invalid " ++ lit)

/-- Scan one numeric literal starting at the head of `cs` (the caller
guarantees `cs` starts with a digit, or with `.` followed by a digit). -/
def lexNumber (cs : List Char) : Except String (PyConst × List Char) :=
  match cs with
  | '0' :: c :: rest =>
      if c = 'x' || c = 'X' then lexRadix 16 isHexDigit "hexadecimal literal" rest
      else if c = 'o' || c = 'O' then lexRadix 8 isOctDigit "octal literal" rest
      else if c = 'b' || c = 'B' then lexRadix 2 isBinDigit "binary literal" rest
      else lexDecimal cs
  | _ => lexDecimal cs

/-- Tokens of the modelled fragment of Python's lexer.  Numbers carry their
constant; `+ - * / // % ** ^` are operator tokens; identifiers, string
literals, commas and semicolons lex fine in Python and are rejected later
(by the parser or by `_eval`), so the model keeps them as tokens too. -/
inductive Tok where
  | num (c : PyConst)
  | op (k : BinKind)
  | lparen
  | rparen
  | ident (s : String)
  | strTok (s : String)
  | comma
  | semi
deriving DecidableEq, Repr

/-- Prepend a token to the result of lexing the remainder. -/
def lexCons (t : Tok) : Except String (List Tok) → Except String (List Tok)
  | .error e => .error e
  | .ok ts => .ok (t :: ts)

/-- Does the list start with a digit? -/
def headIsDigit : List Char → Bool
  | c :: _ => c.isDigit
  | [] => false

/-- The tokenizer loop, modelling CPython's lexer on the reachable fragment:
whitespace is skipped, `#` starts a comment running to the end of the line,
numbers/identifiers/strings are scanned by the helpers above, `**` and `//`
use maximal munch, and any other character is a syntax error.  Fuel is
`length + 1`; every iteration consumes at least one character, so the fuel
never runs out on the initial call. -/
def lexLoop : ℕ → List Char → Except String (List Tok)
  | 0, _ => .error "tokenizer fuel exhausted"
  | _ + 1, [] => .ok []
  | n + 1, c :: cs =>
      if pyWsChar c then lexLoop n cs
      else if c = '#' then lexLoop n (cs.dropWhile (fun d => d ≠ '\n'))
      else if c.isDigit || (c = '.' && headIsDigit cs) then
        match lexNumber (c :: cs) with
        | .error e => .error e
        | .ok (k, rest) => lexCons (.num k) (lexLoop n rest)
      else if identStart c then
        lexCons (.ident (String.mk ((c :: cs).takeWhile identChar)))
          (lexLoop n ((c :: cs).dropWhile identChar))
      else if c = '\'' || c = '"' then
        match cs.dropWhile (fun d => d ≠ c) with
        | _ :: rest' =>
            lexCons (.strTok (String.mk (cs.takeWhile (fun d => d ≠ c))))
              (lexLoop n rest')
        | [] => .error "unterminated string literal"
      else if c = '(' then lexCons .lparen (lexLoop n cs)
      else if c = ')' then lexCons .rparen (lexLoop n cs)
      else if c = ',' then lexCons .comma (lexLoop n cs)
      else if c = ';' then lexCons .semi (lexLoop n cs)
      else if c = '+' then lexCons (.op .add) (lexLoop n cs)
      else if c = '-' then lexCons (.op .sub) (lexLoop n cs)
      else if c = '%' then lexCons (.op .mod) (lexLoop n cs)
      else if c = '^' then lexCons (.op .bitXor) (lexLoop n cs)
      else if c = '*' then
        match cs with
        | '*' :: cs' => lexCons (.op .pow) (lexLoop n cs')
        | _ => lexCons (.op .mul) (lexLoop n cs)
      else if c = '/' then
        match cs with
        | '/' :: cs' => lexCons (.op .floorDiv) (lexLoop n cs')
        | _ => lexCons (.op .div) (lexLoop n cs)
      else .error "invalid character"

/-- Tokenize a character list. -/
def pyTokenize (cs : List Char) : Except String (List Tok) :=
  lexLoop (cs.length + 1) cs

/-- Operators handled at Python's multiplicative precedence level. -/
def termOp (k : BinKind) : Bool :=
  match k with
  | .mul => true
  | .div => true
  | .floorDiv => true
  | .mod => true
  | _ => false

/-- Operators handled at Python's additive precedence level. -/
def arithOp (k : BinKind) : Bool :=
  match k with
  | .add => true
  | .sub => true
  | _ => false

mutual

/-- Recursive-descent parser for the fragment of Python's expression grammar
reachable here, with CPython's precedence: `^` below `+ -`, then `* / // %`,
then unary sign, then right-associative `**` whose right operand is parsed at
the unary level, then call postfixes, then atoms.  Fuel decreases on every
call; the top entry point supplies far more fuel than any input can use.
`pXor` is the xor (lowest modelled) level. -/
def pXor : ℕ → List Tok → Except String (PyAst × List Tok)
  | 0, _ => .error "expression nesting too deep"
  | n + 1, ts =>
      match pArith n ts with
      | .error e => .error e
      | .ok (l, r) => pXorLoop n l r

/-- Left-associative loop for `^`. -/
def pXorLoop : ℕ → PyAst → List Tok → Except String (PyAst × List Tok)
  | 0, _, _ => .error "expression nesting too deep"
  | n + 1, acc, ts =>
      match ts with
      | .op k :: rest =>
          if k = .bitXor then
            match pArith n rest with
            | .error e => .error e
            | .ok (r, rest') => pXorLoop n (.binOp .bitXor acc r) rest'
          else .ok (acc, .op k :: rest)
      | _ => .ok (acc, ts)

/-- Additive level: a term followed by `(('+' | '-') term)*`. -/
def pArith : ℕ → List Tok → Except String (PyAst × List Tok)
  | 0, _ => .error "expression nesting too deep"
  | n + 1, ts =>
      match pTerm n ts with
      | .error e => .error e
      | .ok (l, r) => pArithLoop n l r

/-- Left-associative loop for `+` and `-`. -/
def pArithLoop : ℕ → PyAst → List Tok → Except String (PyAst × List Tok)
  | 0, _, _ => .error "expression nesting too deep"
  | n + 1, acc, ts =>
      match ts with
      | .op k :: rest =>
          if arithOp k then
            match pTerm n rest with
            | .error e => .error e
            | .ok (r, rest') => pArithLoop n (.binOp k acc r) rest'
          else .ok (acc, .op k :: rest)
      | _ => .ok (acc, ts)

/-- Multiplicative level: a factor followed by
`(('*' | '/' | '//' | '%') factor)*`. -/
def pTerm : ℕ → List Tok → Except String (PyAst × List Tok)
  | 0, _ => .error "expression nesting too deep"
  | n + 1, ts =>
      match pFactor n ts with
      | .error e => .error e
      | .ok (l, r) => pTermLoop n l r

/-- Left-associative loop for `* / // %`. -/
def pTermLoop : ℕ → PyAst → List Tok → Except String (PyAst × List Tok)
  | 0, _, _ => .error "expression nesting too deep"
  | n + 1, acc, ts =>
      match ts with
      | .op k :: rest =>
          if termOp k then
            match pFactor n rest with
            | .error e => .error e
            | .ok (r, rest') => pTermLoop n (.binOp k acc r) rest'
          else .ok (acc, .op k :: rest)
      | _ => .ok (acc, ts)

/-- Unary level (CPython's `factor`): `('+' | '-') factor | power`. -/
def pFactor : ℕ → List Tok → Except String (PyAst × List Tok)
  | 0, _ => .error "expression nesting too deep"
  | n + 1, ts =>
      match ts with
      | .op k :: rest =>
          if k = .add then
            match pFactor n rest with
            | .error e => .error e
            | .ok (e, r) => .ok (.unaryOp .uAdd e, r)
          else if k = .sub then
            match pFactor n rest with
            | .error e => .error e
            | .ok (e, r) => .ok (.unaryOp .uSub e, r)
          else pPower n (.op k :: rest)
      | _ => pPower n ts

/-- Power level (CPython's `power`): `primary ['**' factor]`; the right
operand re-enters the unary level, making `**` right-associative and
`2**-1` legal while `-2**2` parses as `-(2**2)`. -/
def pPower : ℕ → List Tok → Except String (PyAst × List Tok)
  | 0, _ => .error "expression nesting too deep"
  | n + 1, ts =>
      match pPrimary n ts with
      | .error e => .error e
      | .ok (b, r) =>
          match r with
          | .op k :: rest =>
              if k = .pow then
                match pFactor n rest with
                | .error e => .error e
                | .ok (e, r') => .ok (.binOp .pow b e, r')
              else .ok (b, .op k :: rest)
          | _ => .ok (b, r)

/-- Primary level: an atom followed by call postfixes (`ast.parse` happily
parses `2(3)` as a `Call`; `_eval` rejects it later). -/
def pPrimary : ℕ → List Tok → Except String (PyAst × List Tok)
  | 0, _ => .error "expression nesting too deep"
  | n + 1, ts =>
      match pAtom n ts with
      | .error e => .error e
      | .ok (a, r) => pCallLoop n a r

/-- Call-postfix loop: each `(` opens an argument list. -/
def pCallLoop : ℕ → PyAst → List Tok → Except String (PyAst × List Tok)
  | 0, _, _ => .error "expression nesting too deep"
  | n + 1, acc, .lparen :: rest =>
      match rest with
      | .rparen :: rest' => pCallLoop n (.call acc 0) rest'
      | _ =>
          match pArgs n rest with
          | .error e => .error e
          | .ok (k, rest') => pCallLoop n (.call acc k) rest'
  | _ + 1, acc, ts => .ok (acc, ts)

/-- Argument list: `expr (',' expr)*` up to and including the closing
parenthesis; only the number of arguments is retained. -/
def pArgs : ℕ → List Tok → Except String (ℕ × List Tok)
  | 0, _ => .error "expression nesting too deep"
  | n + 1, ts =>
      match pXor n ts with
      | .error e => .error e
      | .ok (_, r) =>
          match r with
          | .comma :: rest =>
              match pArgs n rest with
              | .error e => .error e
              | .ok (k, r') => .ok (k + 1, r')
          | .rparen :: rest => .ok (1, rest)
          | _ => .error "expected \x27,\x27 or \x27)\x27 in call"

/-- Atoms: numeric constants, the keyword constants `True`/`False`/`None`
(the parser, not the tokenizer, turns these names into `ast.Constant`),
other identifiers as `ast.Name`, string literals, and parenthesised
expressions. -/
def pAtom : ℕ → List Tok → Except String (PyAst × List Tok)
  | 0, _ => .error "expression nesting too deep"
  | _ + 1, .num c :: rest => .ok (.const c, rest)
  | _ + 1, .ident s :: rest =>
      if s = "True" then .ok (.const (.boolC true), rest)
      else if s = "False" then .ok (.const (.boolC false), rest)
      else if s = "None" then .ok (.const .noneC, rest)
      else .ok (.name s, rest)
  | _ + 1, .strTok s :: rest => .ok (.const (.strC s), rest)
  | n + 1, .lparen :: rest =>
      match pXor n rest with
      | .error e => .error e
      | .ok (e, r) =>
          match r with
          | .rparen :: r' => .ok (e, r')
          | _ => .error "expected \x27)\x27"
  | _ + 1, _ => .error "invalid syntax"

end

/-- Parse a complete token list (eval mode): the whole stream must be
consumed, anything left over is a syntax error.  The fuel bound
`10 * length + 10` exceeds the parser's maximal descent (at most eight
levels between consecutive token consumptions). -/
def pyParse (ts : List Tok) : Except String PyAst :=
  match pXor (10 * ts.length + 10) ts with
  | .error e => .error e
  | .ok (a, []) => .ok a
  | .ok (_, _ :: _) => .error "invalid syntax (trailing tokens)"

/-- The facade `safe_eval_expr` (main.py lines 90-132): strip, fail on empty
input, parse with `ast.parse` (any `SyntaxError` re-raised as
`ValueError(f"Invalid expression: {e}")`), then evaluate with `_eval`. -/
def safe_eval_expr (s : String) : Except EvalError Value :=
  let t := pyStrip s.data
  if t.isEmpty then .error .emptyExpr
  else
    match pyTokenize t with
    | .error d => .error (.invalidExpr d)
    | .ok toks =>
        match pyParse toks with
        | .error d => .error (.invalidExpr d)
        | .ok a => evalAst a

/-- Does the evaluator fail with an error of the given specification kind? -/
def failsWithKind (k : ErrKind) (r : Except EvalError Value) : Bool :=
  match r with
  | .error e => e.kind = k
  | .ok _ => false

/-- Does the evaluator fail with a `SyntaxError` or
`UnsupportedConstructError` kind (the two rejection paths of the spec's
security property)? -/
def failsSyntaxOrUnsupported (r : Except EvalError Value) : Bool :=
  match r with
  | .error e => e.kind = ErrKind.syntaxError || e.kind = ErrKind.unsupportedConstructError
  | .ok _ => false

/-- ASCII model of the regex word character class `\w` used by `\b`. -/
def wordChar (c : Char) : Bool := c.isAlpha || c.isDigit || c = '_'

/-- After dropping the matched pattern, a word boundary requires the next
character (if any) to be a non-word character. -/
def boundaryAfter (w cs : List Char) : Bool :=
  match cs.drop w.length with
  | [] => true
  | c :: _ => !wordChar c

/-- Scan for an occurrence of `w` preceded and followed by a word boundary,
carrying whether the previous character was a word character — the model of
`re.search(r"\b(w)\b", s)` for patterns that start and end with word
characters. -/
def containsWordGo (w : List Char) : Bool → List Char → Bool
  | prevWord, cs =>
      (!prevWord && w.isPrefixOf cs && boundaryAfter w cs) ||
      match cs with
      | [] => false
      | c :: rest => containsWordGo w (wordChar c) rest

/-- `re.search(r"\b(w)\b", cs) is not None`. -/
def containsWord (w : String) (cs : List Char) : Bool :=
  containsWordGo w.data false cs

/-- Any of the alternatives of a `\b(w1|w2|…)\b` regex occurs. -/
def containsWordAny (ws : List String) (cs : List Char) : Bool :=
  ws.any (fun w => containsWord w cs)

/-- Plain substring containment (Python's `w in s`). -/
def containsSub (w : String) (cs : List Char) : Bool :=
  match cs with
  | [] => w.data.isPrefixOf []
  | _ :: rest => w.data.isPrefixOf cs || containsSub w rest

/-- The alternatives of the greeting rule (main.py line 177). -/
def greetWords : List String := ["hi", "hello", "hey", "hiya", "sup"]

/-- The alternatives of the farewell rule (line 185). -/
def farewellWords : List String := ["bye", "goodbye", "see ya", "see you", "later"]

/-- The alternatives of the thanks rule (line 193). -/
def thanksWords : List String := ["thanks", "thank you", "thx"]

/-- The alternatives of the name-inquiry rule (line 205). -/
def nameWords : List String := ["your name", "who are you"]

/-- The alternatives of the time rule (line 209). -/
def timeWords : List String := ["time", "current time", "what time"]

/-- The alternatives of the date rule (line 211). -/
def dateWords : List String := ["date", "today\x27s date", "what date"]

/-- The alternatives of the sad-sentiment rule (line 249). -/
def sadWords : List String := ["sad", "down", "unhappy", "depressed"]

/-- The alternatives of the happy-sentiment rule (line 251). -/
def happyWords : List String := ["happy", "great", "awesome", "good", "fantastic"]

/-- The greeting replies the bot picks from at random. -/
def greetReplies : List String :=
  ["Hi there! 👋 How can I help you today?",
   "Hello! I\x27m PyBot 🤖 — ask me for /help to see what I can do.",
   "Hey! Nice to meet you. What would you like to do?"]

/-- The farewell replies. -/
def farewellReplies : List String :=
  ["Goodbye! Have a wonderful day! 👋",
   "See you later — come back if you need anything else!",
   "Bye! Stay curious ✨"]

/-- The thanks replies. -/
def thanksReplies : List String :=
  ["You\x27re welcome! 😊",
   "Anytime — glad to help!",
   "No problem! If you\x27d like, type /help for more commands."]

/-- The joke replies. -/
def jokeReplies : List String :=
  ["Why did the computer show up late to work? It had a hard drive! 😂",
   "Why do programmers prefer dark mode? Because light attracts bugs! 🐛",
   "Why did the developer go broke? Because he used up all his cache. 💸"]

/-- `SMALL_FACTS` (main.py lines 46-50). -/
def smallFacts : List String :=
  ["Honey never spoils — archaeologists found edible honey in ancient Egyptian tombs.",
   "Octopuses have three hearts.",
   "The Eiffel Tower can be 15 cm taller during the summer (thermal expansion)."]

/-- The fallback suggestions (main.py lines 269-273). -/
def fallbackSuggestions : List String :=
  ["Sorry, I didn’t understand that. Try /help to see options.",
   "I can respond to basic phrases or run commands like /quiz or /save — try them!",
   "If you want to compute something, type: calc 12/(3+1)"]

/-- A chatbot reply: either a fixed string, a uniformly random choice among
fixed options (`random.choice`), or a string embedding the current clock
(the time/date rules), whose text the model cannot know. -/
inductive BotReply where
  | fixed (s : String)
  | randomOf (options : List String)
  | clockTime
  | clockDate
deriving DecidableEq, Repr

/-- The model of `re.match(r"^calc[: ]+(.+)", lower)`: a `calc` prefix, one
or more separators (colon or space), then a nonempty tail; when everything
after the separators is empty the regex backtracks and captures the final
separator character. -/
def calcCommand (lower : List Char) : Option (List Char) :=
  if ['c', 'a', 'l', 'c'].isPrefixOf lower then
    let rest := lower.drop 4
    let sepN := (rest.takeWhile (fun c => c = ':' || c = ' ')).length
    if sepN = 0 then none
    else if sepN < rest.length then some (rest.drop sepN)
    else if 2 ≤ sepN then some (rest.drop (sepN - 1))
    else none
  else none

/-- The character class `[0-9\s\.\+\-\*\/\%\(\)\^//]` of the bare
numeric-line rule (main.py line 238). -/
def mathClassChar (c : Char) : Bool :=
  c.isDigit || pyWsChar c ||
    (['.', '+', '-', '*', '/', '%', '(', ')', '^'].contains c)

/-- `lower.replace("^", "**")`. -/
def caretExpand (cs : List Char) : List Char :=
  cs.flatMap (fun c => if c = '^' then ['*', '*'] else [c])

/-- Does the caret-expanded line fully match the numeric character class
(`re.fullmatch` on a `+`-quantified class: nonempty and all characters in
the class)? -/
def mathLineCandidate (lower : List Char) : Bool :=
  let replaced := caretExpand lower
  !replaced.isEmpty && replaced.all mathClassChar

/-- Python's `str(result)` for the f-string `f"Result: {result}"`.  Integer
and boolean renderings are exact; the decimal repr of a non-integral float
and of a complex number is not modelled (no claim inspects one). -/
def renderValue : Value → String
  | .VInt z => toString z
  | .VBool b => if b then "True" else "False"
  | .VFloat q => if q.den = 1 then toString q.num ++ ".0" else toString q.num ++ "/" ++ toString q.den
  | .VComplex => "<complex>"

/-- `str.lower()` (ASCII model; every input a claim touches is ASCII). -/
def lowerOf (s : String) : List Char := (pyStrip s.data).map Char.toLower

/-- Does any rule that precedes the calculator rules fire on the lowered
input (slash-command note, greeting, farewell, thanks, how-are-you, name,
time, date, joke, fact — main.py lines 173-225)? -/
def earlierRuleFires (l : List Char) : Bool :=
  (match l with | '/' :: _ => true | _ => false) ||
  containsWordAny greetWords l ||
  containsWordAny farewellWords l ||
  containsWordAny thanksWords l ||
  containsWord "how are you" l ||
  containsWordAny nameWords l ||
  containsWordAny timeWords l ||
  containsWordAny dateWords l ||
  containsSub "joke" l ||
  containsSub "fact" l || containsSub "random fact" l

/-- The rules that run after the calculator rules (sentiment, FAQs, quiz
hint, random fallback — main.py lines 248-274). -/
def lateRules (l : List Char) : BotReply :=
  if containsWordAny sadWords l then
    .fixed "I\x27m sorry you\x27re feeling that way. If you want, tell me what\x27s on your mind — I can listen. 💬"
  else if containsWordAny happyWords l then
    .fixed "That\x27s wonderful to hear! Keep that momentum going! 🎉"
  else if containsSub "what can you do" l then
    .fixed "I can chat, do safe math (prefix \x27calc \x27), tell jokes, run a mini-quiz (/quiz), and save/load chat logs."
  else if containsSub "how to exit" l then
    .fixed "Type /exit or press Ctrl+C to quit."
  else if containsSub "how to save" l then
    .fixed "Use /save to write the conversation to a file."
  else if containsSub "quiz" l then
    .fixed "Type /quiz to start a mini-quiz (multiple short questions)."
  else .randomOf fallbackSuggestions

/-- `chatbot_response` (main.py lines 163-274): strip and lowercase, then try
the pattern rules in source order.  A `calc` command reports evaluator
failures as `Calculator error: …`; the bare numeric-line rule silently
swallows failures (`except Exception: pass`) and falls through to the
remaining rules. -/
def chatbot_response (input : String) : BotReply :=
  let l := lowerOf input
  if (match l with | '/' :: _ => true | _ => false) then
    .fixed "Use bot commands directly (handled separately). Type /help for commands."
  else if containsWordAny greetWords l then .randomOf greetReplies
  else if containsWordAny farewellWords l then .randomOf farewellReplies
  else if containsWordAny thanksWords l then .randomOf thanksReplies
  else if containsWord "how are you" l then
    .fixed "I\x27m just a set of Python instructions, but I\x27m running smoothly! 😊"
  else if containsWordAny nameWords l then
    .fixed "I\x27m PyBot — your friendly rule-based chatbot assistant. You can call me PyBot 🤖"
  else if containsWordAny timeWords l then .clockTime
  else if containsWordAny dateWords l then .clockDate
  else if containsSub "joke" l then .randomOf jokeReplies
  else if containsSub "fact" l || containsSub "random fact" l then .randomOf smallFacts
  else
    match calcCommand l with
    | some e =>
        (match safe_eval_expr (String.mk e) with
         | .ok v => .fixed ("Result: " ++ renderValue v)
         | .error err => .fixed ("Calculator error: " ++ errMessage err))
    | none =>
        if mathLineCandidate l then
          match safe_eval_expr (String.mk (caretExpand l)) with
          | .ok v => .fixed ("Result: " ++ renderValue v)
          | .error _ => lateRules l
        else lateRules l

/-- Parenthesis weight of a token. -/
def tokWeight : Tok → ℤ
  | .lparen => 1
  | .rparen => -1
  | _ => 0

/-- Net parenthesis balance of a token list. -/
def tokBal (ts : List Tok) : ℤ := (ts.map tokWeight).sum

/-- Tokens that can be consumed into a tree that `_eval` accepts: numbers,
allow-listed operators, parentheses, and the keyword constants
`True`/`False`. -/
def goodTok : Tok → Bool
  | .num _ => true
  | .op k => allowedBin k
  | .lparen => true
  | .rparen => true
  | .ident s => s = "True" || s = "False"
  | _ => false

/-- Tokens drawn from the claim C2 character class: integer literals, the
seven arithmetic operators, parentheses. -/
def arithTok : Tok → Bool
  | .num (.intC _) => true
  | .op k => allowedBin k
  | .lparen => true
  | .rparen => true
  | _ => false

/-- Characters that can occur inside a numeric literal of the modelled
grammar (decimal/hex/octal/binary digits, separators, point, exponent
markers and signs, radix markers). -/
def numLitChar (c : Char) : Bool :=
  c.isDigit || c = '_' || c = '.' || c = '+' || c = '-' ||
  c = 'e' || c = 'E' || c = 'x' || c = 'X' || c = 'o' || c = 'O' ||
  c = 'b' || c = 'B' || ('a' ≤ c && c ≤ 'f') || ('A' ≤ c && c ≤ 'F')

/-- Characters that can appear (outside comments) in an input on which
`safe_eval_expr` returns a value: whitespace, digits, the operator and
parenthesis symbols, plus the characters of numeric literals and of the
keyword constants `True`/`False`. -/
def goodChar (c : Char) : Bool :=
  pyWsChar c || c.isDigit || c = '.' || c = '+' || c = '-' || c = '*' || c = '/' ||
  c = '%' || c = '(' || c = ')' || c = '_' || c = 'e' || c = 'E' || c = 'x' ||
  c = 'X' || c = 'o' || c = 'O' || c = 'b' || c = 'B' ||
  ('a' ≤ c && c ≤ 'f') || ('A' ≤ c && c ≤ 'F') ||
  c = 'T' || c = 'r' || c = 'u' || c = 'l' || c = 's'

/-- The character set claim C1 allows: whitespace, digits, the decimal
point, the characters of the recognized operator symbols, parentheses. -/
def c1ClaimChar (c : Char) : Bool :=
  pyWsChar c || c.isDigit || c = '.' || c = '+' || c = '-' || c = '*' || c = '/' ||
  c = '%' || c = '(' || c = ')'

/-- The claim C2 character class: digits, the characters of
`+ - * / // % **`, parentheses, whitespace. -/
def c2Char (c : Char) : Bool :=
  c.isDigit || c = '+' || c = '-' || c = '*' || c = '/' || c = '%' || c = '(' ||
  c = ')' || pyWsChar c

/-- Textual model of CPython's comment stripping: in state `true` we are
inside a `#`-comment and drop characters until a newline. -/
def commentStripGo : Bool → List Char → List Char
  | _, [] => []
  | true, c :: rest =>
      if c = '\n' then c :: commentStripGo false rest else commentStripGo true rest
  | false, c :: rest =>
      if c = '#' then commentStripGo true rest else c :: commentStripGo false rest

/-- Drop `#`-comments from a character list. -/
def commentStrip (cs : List Char) : List Char := commentStripGo false cs

/-- The head of `cs`, if any, is not a decimal digit. -/
def headNotDigit (cs : List Char) : Prop :=
  ∀ c, cs.head? = some c → c.isDigit = false

/-- The head of `cs`, if any, differs from `x`. -/
def headNot (x : Char) (cs : List Char) : Prop :=
  ∀ c, cs.head? = some c → c ≠ x

/-- Specification tokenizer (§4.1), as a derivation relation following the
spec's words: skip whitespace; recognize decimal numeric literals — digit
runs, optionally with a single decimal point — and the symbols
`+ - * / // % ( )` with maximal munch for `**` and `//`; every other
character has no rule and so no token sequence. -/
inductive STokens : List Char → List Tok → Prop where
  | nil : STokens [] []
  | ws {c cs ts} : pyWsChar c = true → STokens cs ts → STokens (c :: cs) ts
  | number {ds cs ts} :
      ds ≠ [] → (∀ c ∈ ds, c.isDigit = true) → headNotDigit cs →
      headNot '.' cs →
      STokens cs ts →
      STokens (ds ++ cs) (.num (.intC (Int.ofNat (digitsToNatBase 10 ds))) :: ts)
  | numberFloat {d1 d2 cs ts} :
      d1 ++ d2 ≠ [] → (∀ c ∈ d1, c.isDigit = true) → (∀ c ∈ d2, c.isDigit = true) →
      headNotDigit cs → headNot '.' cs →
      STokens cs ts →
      STokens (d1 ++ '.' :: d2 ++ cs)
        (.num (.floatC (decimalFloatVal d1 d2 false 0)) :: ts)
  | plus {cs ts} : STokens cs ts → STokens ('+' :: cs) (.op .add :: ts)
  | minus {cs ts} : STokens cs ts → STokens ('-' :: cs) (.op .sub :: ts)
  | percent {cs ts} : STokens cs ts → STokens ('%' :: cs) (.op .mod :: ts)
  | star {cs ts} : headNot '*' cs → STokens cs ts → STokens ('*' :: cs) (.op .mul :: ts)
  | dstar {cs ts} : STokens cs ts → STokens ('*' :: '*' :: cs) (.op .pow :: ts)
  | slash {cs ts} : headNot '/' cs → STokens cs ts → STokens ('/' :: cs) (.op .div :: ts)
  | dslash {cs ts} : STokens cs ts → STokens ('/' :: '/' :: cs) (.op .floorDiv :: ts)
  | lpar {cs ts} : STokens cs ts → STokens ('(' :: cs) (.lparen :: ts)
  | rpar {cs ts} : STokens cs ts → STokens (')' :: cs) (.rparen :: ts)

mutual

/-- Specification grammar (§4.2) with the precedence stated in the spec's
prose, as a big-step parse-and-evaluate derivation:
`expr := term (('+' | '-') term)*`, evaluated left to right with the §4.3
operator semantics (`applyBin`). -/
inductive SExpr : List Tok → Value → List Tok → Prop where
  | mk {ts v r w r'} : STerm ts v r → SExprTail v r w r' → SExpr ts w r'

/-- Left-associative continuation of `expr` with `+`/`-`. -/
inductive SExprTail : Value → List Tok → Value → List Tok → Prop where
  | stop {v ts} : SExprTail v ts v ts
  | step {k v ts v2 r v3 w r'} :
      (k = BinKind.add ∨ k = BinKind.sub) →
      STerm ts v2 r → applyBin k v v2 = .ok v3 → SExprTail v3 r w r' →
      SExprTail v (.op k :: ts) w r'

/-- `term := factor (('*' | '/' | '//' | '%') factor)*` where the spec's
`factor` is the unary level. -/
inductive STerm : List Tok → Value → List Tok → Prop where
  | mk {ts v r w r'} : SUnary ts v r → STermTail v r w r' → STerm ts w r'

/-- Left-associative continuation of `term`. -/
inductive STermTail : Value → List Tok → Value → List Tok → Prop where
  | stop {v ts} : STermTail v ts v ts
  | step {k v ts v2 r v3 w r'} :
      (k = BinKind.mul ∨ k = BinKind.div ∨ k = BinKind.floorDiv ∨ k = BinKind.mod) →
      SUnary ts v2 r → applyBin k v v2 = .ok v3 → STermTail v3 r w r' →
      STermTail v (.op k :: ts) w r'

/-- `unary := ('+' | '-') unary | power`: power binds tighter than unary
minus on its left operand (spec prose: `-2**2` is `-(2**2)`). -/
inductive SUnary : List Tok → Value → List Tok → Prop where
  | pos {ts v r v'} : SUnary ts v r → applyUn .uAdd v = .ok v' → SUnary (.op .add :: ts) v' r
  | neg {ts v r v'} : SUnary ts v r → applyUn .uSub v = .ok v' → SUnary (.op .sub :: ts) v' r
  | base {ts v r} : SPower ts v r → SUnary ts v r

/-- `power := atom ['**' unary]`: right-associative, and the right operand
may itself be a signed unary expression (`2**-1`). -/
inductive SPower : List Tok → Value → List Tok → Prop where
  | noPow {ts v r} : SAtom ts v r → SPower ts v r
  | withPow {ts b r r2 e v} :
      SAtom ts b (.op .pow :: r2) → SUnary r2 e r → applyBin .pow b e = .ok v →
      SPower ts v r

/-- `atom := NUMBER | '(' expr ')'`. -/
inductive SAtom : List Tok → Value → List Tok → Prop where
  | numInt {z r} : SAtom (.num (.intC z) :: r) (.VInt z) r
  | numFloat {q r} : SAtom (.num (.floatC q) :: r) (.VFloat q) r
  | paren {ts v r'} : SExpr ts v (.rparen :: r') → SAtom (.lparen :: ts) v r'

end

/-- The spec facade (§4.4) relation: after trimming, some spec-tokenizer
run and a full `expr` derivation produce the value `v`. -/
def specConsistent (s : String) (v : Value) : Prop :=
  ∃ ts, STokens (pyStrip s.data) ts ∧ SExpr ts v []

/-- Evaluating the same string twice (the spec's idempotence experiment). -/
def evalTwice (s : String) : Except EvalError Value × Except EvalError Value :=
  (safe_eval_expr s, safe_eval_expr s)

/-- Parser invariant: the unconsumed tokens are a suffix, the consumed
prefix is parenthesis-balanced, and if the produced tree is pure arithmetic
then every consumed token was benign. -/
def pInv (ts : List Tok) (a : PyAst) (r : List Tok) : Prop :=
  ∃ pre, ts = pre ++ r ∧ tokBal pre = 0 ∧ (astArithOnly a = true → pre.all goodTok = true)

/-- Invariant for the left-associative operator loops, additionally tying
the produced tree back to the accumulator. -/
def pInvLoop (acc : PyAst) (ts : List Tok) (a : PyAst) (r : List Tok) : Prop :=
  ∃ pre, ts = pre ++ r ∧ tokBal pre = 0 ∧
    (astArithOnly a = true → astArithOnly acc = true ∧ pre.all goodTok = true)

/-- Invariant for the call-postfix loop: a pure-arithmetic result means the
loop never fired. -/
def pInvCall (acc : PyAst) (ts : List Tok) (a : PyAst) (r : List Tok) : Prop :=
  ∃ pre, ts = pre ++ r ∧ tokBal pre = 0 ∧ (astArithOnly a = true → a = acc ∧ pre = [])

/-- Invariant for an argument list, which also consumes the closing
parenthesis. -/
def pInvArgs (ts : List Tok) (r : List Tok) : Prop :=
  ∃ pre, ts = pre ++ r ∧ tokBal pre = -1

/-- Whenever `_eval` returns a value, the tree it walked was pure arithmetic:
nothing outside the allow-list is ever executed. -/
theorem evalAst_ok_arithOnly (e : PyAst) (v : Value) :
    evalAst e = .ok v → astArithOnly e = true := by
  induction e generalizing v with
  | const c => cases c <;> simp [evalAst, astArithOnly]
  | binOp op l r ihl ihr =>
      intro h
      simp only [evalAst] at h
      by_cases hop : allowedBin op
      · simp only [hop, if_true] at h
        cases hl : evalAst l with
        | error e => rw [hl] at h; exact absurd h (by simp)
        | ok lv =>
            rw [hl] at h
            cases hr : evalAst r with
            | error e => rw [hr] at h; exact absurd h (by simp)
            | ok rv =>
                simp [astArithOnly, hop, ihl lv hl, ihr rv hr]
      · simp [hop] at h
  | unaryOp op e ih =>
      intro h
      simp only [evalAst] at h
      cases he : evalAst e with
      | error e2 => rw [he] at h; exact absurd h (by simp)
      | ok ev => simp [astArithOnly, ih ev he]
  | name id => intro h; simp [evalAst] at h
  | call f nargs ihf => intro h; simp [evalAst] at h

theorem tokBal_append (a b : List Tok) : tokBal (a ++ b) = tokBal a + tokBal b := by
  simp [tokBal]

theorem tokBal_cons (t : Tok) (a : List Tok) : tokBal (t :: a) = tokWeight t + tokBal a := by
  simp [tokBal]

/-- Compose a level parse with its operator loop. -/
theorem pInv_comp {ts a0 r0 a r} (h1 : pInv ts a0 r0) (h2 : pInvLoop a0 r0 a r) :
    pInv ts a r := by
  obtain ⟨p1, rfl, b1, g1⟩ := h1
  obtain ⟨p2, rfl, b2, g2⟩ := h2
  refine ⟨p1 ++ p2, by simp, by simp [tokBal_append, b1, b2], ?_⟩
  intro ha
  obtain ⟨hacc, hg2⟩ := g2 ha
  simp [List.all_append, g1 hacc, hg2]

/-- One iteration of a left-associative operator loop preserves the loop
invariant. -/
theorem pInvLoop_step {k : BinKind} {acc a1 rest r1 a r}
    (h1 : pInv rest a1 r1) (h2 : pInvLoop (.binOp k acc a1) r1 a r) :
    pInvLoop acc (.op k :: rest) a r := by
  obtain ⟨p1, rfl, b1, g1⟩ := h1
  obtain ⟨p2, rfl, b2, g2⟩ := h2
  refine ⟨.op k :: (p1 ++ p2), by simp, ?_, ?_⟩
  · simp [tokBal_cons, tokBal_append, b1, b2, tokWeight]
  · intro ha
    obtain ⟨haccop, hg2⟩ := g2 ha
    simp only [astArithOnly, Bool.and_eq_true] at haccop
    obtain ⟨⟨hallow, hacc⟩, ha1⟩ := haccop
    refine ⟨hacc, ?_⟩
    simp [List.all_append, goodTok, hallow, g1 ha1, hg2]

/-- The trivial loop invariant when the loop stops immediately. -/
theorem pInvLoop_stop {acc ts} : pInvLoop acc ts acc ts :=
  ⟨[], by simp, by simp [tokBal], fun h => ⟨h, by simp⟩⟩

/-- The parser invariants hold at every fuel value for every level of the
recursive-descent parser. -/
theorem parserInvAll (n : ℕ) :
    (∀ ts a r, pXor n ts = .ok (a, r) → pInv ts a r) ∧
    (∀ acc ts a r, pXorLoop n acc ts = .ok (a, r) → pInvLoop acc ts a r) ∧
    (∀ ts a r, pArith n ts = .ok (a, r) → pInv ts a r) ∧
    (∀ acc ts a r, pArithLoop n acc ts = .ok (a, r) → pInvLoop acc ts a r) ∧
    (∀ ts a r, pTerm n ts = .ok (a, r) → pInv ts a r) ∧
    (∀ acc ts a r, pTermLoop n acc ts = .ok (a, r) → pInvLoop acc ts a r) ∧
    (∀ ts a r, pFactor n ts = .ok (a, r) → pInv ts a r) ∧
    (∀ ts a r, pPower n ts = .ok (a, r) → pInv ts a r) ∧
    (∀ ts a r, pPrimary n ts = .ok (a, r) → pInv ts a r) ∧
    (∀ acc ts a r, pCallLoop n acc ts = .ok (a, r) → pInvCall acc ts a r) ∧
    (∀ ts k r, pArgs n ts = .ok (k, r) → pInvArgs ts r) ∧
    (∀ ts a r, pAtom n ts = .ok (a, r) → pInv ts a r) := by
  induction n with
  | zero =>
      refine ⟨fun ts a r h => ?_, fun acc ts a r h => ?_, fun ts a r h => ?_,
        fun acc ts a r h => ?_, fun ts a r h => ?_, fun acc ts a r h => ?_,
        fun ts a r h => ?_, fun ts a r h => ?_, fun ts a r h => ?_,
        fun acc ts a r h => ?_, fun ts k r h => ?_, fun ts a r h => ?_⟩ <;>
        simp [pXor, pXorLoop, pArith, pArithLoop, pTerm, pTermLoop, pFactor,
          pPower, pPrimary, pCallLoop, pArgs, pAtom] at h
  | succ n ih =>
      obtain ⟨iXor, iXorL, iArith, iArithL, iTerm, iTermL, iFactor, iPower,
        iPrimary, iCall, iArgs, iAtom⟩ := ih
      refine ⟨?_, ?_, ?_, ?_, ?_, ?_, ?_, ?_, ?_, ?_, ?_, ?_⟩
      -- pXor
      · intro ts a r h
        simp only [pXor] at h
        cases h1 : pArith n ts with
        | error e => simp [h1] at h
        | ok p =>
            obtain ⟨a0, r0⟩ := p
            simp only [h1] at h
            exact pInv_comp (iArith _ _ _ h1) (iXorL _ _ _ _ h)
      -- pXorLoop
      · intro acc ts a r h
        cases ts with
        | nil =>
            simp only [pXorLoop, Except.ok.injEq, Prod.mk.injEq] at h
            obtain ⟨rfl, rfl⟩ := h
            exact pInvLoop_stop
        | cons t rest =>
            cases t with
            | op k =>
                simp only [pXorLoop] at h
                by_cases hk : k = BinKind.bitXor
                · subst hk
                  simp only [if_pos rfl] at h
                  cases h1 : pArith n rest with
                  | error e => simp [h1] at h
                  | ok p =>
                      obtain ⟨a1, r1⟩ := p
                      simp only [h1] at h
                      exact pInvLoop_step (iArith _ _ _ h1) (iXorL _ _ _ _ h)
                · simp only [if_neg hk, Except.ok.injEq, Prod.mk.injEq] at h
                  obtain ⟨rfl, rfl⟩ := h
                  exact pInvLoop_stop
            | num c =>
                simp only [pXorLoop, Except.ok.injEq, Prod.mk.injEq] at h
                obtain ⟨rfl, rfl⟩ := h
                exact pInvLoop_stop
            | lparen =>
                simp only [pXorLoop, Except.ok.injEq, Prod.mk.injEq] at h
                obtain ⟨rfl, rfl⟩ := h
                exact pInvLoop_stop
            | rparen =>
                simp only [pXorLoop, Except.ok.injEq, Prod.mk.injEq] at h
                obtain ⟨rfl, rfl⟩ := h
                exact pInvLoop_stop
            | ident s =>
                simp only [pXorLoop, Except.ok.injEq, Prod.mk.injEq] at h
                obtain ⟨rfl, rfl⟩ := h
                exact pInvLoop_stop
            | strTok s =>
                simp only [pXorLoop, Except.ok.injEq, Prod.mk.injEq] at h
                obtain ⟨rfl, rfl⟩ := h
                exact pInvLoop_stop
            | comma =>
                simp only [pXorLoop, Except.ok.injEq, Prod.mk.injEq] at h
                obtain ⟨rfl, rfl⟩ := h
                exact pInvLoop_stop
            | semi =>
                simp only [pXorLoop, Except.ok.injEq, Prod.mk.injEq] at h
                obtain ⟨rfl, rfl⟩ := h
                exact pInvLoop_stop
      -- pArith
      · intro ts a r h
        simp only [pArith] at h
        cases h1 : pTerm n ts with
        | error e => simp [h1] at h
        | ok p =>
            obtain ⟨a0, r0⟩ := p
            simp only [h1] at h
            exact pInv_comp (iTerm _ _ _ h1) (iArithL _ _ _ _ h)
      -- pArithLoop
      · intro acc ts a r h
        cases ts with
        | nil =>
            simp only [pArithLoop, Except.ok.injEq, Prod.mk.injEq] at h
            obtain ⟨rfl, rfl⟩ := h
            exact pInvLoop_stop
        | cons t rest =>
            cases t with
            | op k =>
                simp only [pArithLoop] at h
                by_cases hk : arithOp k = true
                · simp only [hk, if_pos] at h
                  cases h1 : pTerm n rest with
                  | error e => simp [h1] at h
                  | ok p =>
                      obtain ⟨a1, r1⟩ := p
                      simp only [h1] at h
                      exact pInvLoop_step (iTerm _ _ _ h1) (iArithL _ _ _ _ h)
                · simp only [hk, if_neg, Bool.false_eq_true, not_false_eq_true,
                    Except.ok.injEq, Prod.mk.injEq] at h
                  obtain ⟨rfl, rfl⟩ := h
                  exact pInvLoop_stop
            | num c =>
                simp only [pArithLoop, Except.ok.injEq, Prod.mk.injEq] at h
                obtain ⟨rfl, rfl⟩ := h
                exact pInvLoop_stop
            | lparen =>
                simp only [pArithLoop, Except.ok.injEq, Prod.mk.injEq] at h
                obtain ⟨rfl, rfl⟩ := h
                exact pInvLoop_stop
            | rparen =>
                simp only [pArithLoop, Except.ok.injEq, Prod.mk.injEq] at h
                obtain ⟨rfl, rfl⟩ := h
                exact pInvLoop_stop
            | ident s =>
                simp only [pArithLoop, Except.ok.injEq, Prod.mk.injEq] at h
                obtain ⟨rfl, rfl⟩ := h
                exact pInvLoop_stop
            | strTok s =>
                simp only [pArithLoop, Except.ok.injEq, Prod.mk.injEq] at h
                obtain ⟨rfl, rfl⟩ := h
                exact pInvLoop_stop
            | comma =>
                simp only [pArithLoop, Except.ok.injEq, Prod.mk.injEq] at h
                obtain ⟨rfl, rfl⟩ := h
                exact pInvLoop_stop
            | semi =>
                simp only [pArithLoop, Except.ok.injEq, Prod.mk.injEq] at h
                obtain ⟨rfl, rfl⟩ := h
                exact pInvLoop_stop
      -- pTerm
      · intro ts a r h
        simp only [pTerm] at h
        cases h1 : pFactor n ts with
        | error e => simp [h1] at h
        | ok p =>
            obtain ⟨a0, r0⟩ := p
            simp only [h1] at h
            exact pInv_comp (iFactor _ _ _ h1) (iTermL _ _ _ _ h)
      -- pTermLoop
      · intro acc ts a r h
        cases ts with
        | nil =>
            simp only [pTermLoop, Except.ok.injEq, Prod.mk.injEq] at h
            obtain ⟨rfl, rfl⟩ := h
            exact pInvLoop_stop
        | cons t rest =>
            cases t with
            | op k =>
                simp only [pTermLoop] at h
                by_cases hk : termOp k = true
                · simp only [hk, if_pos] at h
                  cases h1 : pFactor n rest with
                  | error e => simp [h1] at h
                  | ok p =>
                      obtain ⟨a1, r1⟩ := p
                      simp only [h1] at h
                      exact pInvLoop_step (iFactor _ _ _ h1) (iTermL _ _ _ _ h)
                · simp only [hk, if_neg, Bool.false_eq_true, not_false_eq_true,
                    Except.ok.injEq, Prod.mk.injEq] at h
                  obtain ⟨rfl, rfl⟩ := h
                  exact pInvLoop_stop
            | num c =>
                simp only [pTermLoop, Except.ok.injEq, Prod.mk.injEq] at h
                obtain ⟨rfl, rfl⟩ := h
                exact pInvLoop_stop
            | lparen =>
                simp only [pTermLoop, Except.ok.injEq, Prod.mk.injEq] at h
                obtain ⟨rfl, rfl⟩ := h
                exact pInvLoop_stop
            | rparen =>
                simp only [pTermLoop, Except.ok.injEq, Prod.mk.injEq] at h
                obtain ⟨rfl, rfl⟩ := h
                exact pInvLoop_stop
            | ident s =>
                simp only [pTermLoop, Except.ok.injEq, Prod.mk.injEq] at h
                obtain ⟨rfl, rfl⟩ := h
                exact pInvLoop_stop
            | strTok s =>
                simp only [pTermLoop, Except.ok.injEq, Prod.mk.injEq] at h
                obtain ⟨rfl, rfl⟩ := h
                exact pInvLoop_stop
            | comma =>
                simp only [pTermLoop, Except.ok.injEq, Prod.mk.injEq] at h
                obtain ⟨rfl, rfl⟩ := h
                exact pInvLoop_stop
            | semi =>
                simp only [pTermLoop, Except.ok.injEq, Prod.mk.injEq] at h
                obtain ⟨rfl, rfl⟩ := h
                exact pInvLoop_stop
      -- pFactor
      · intro ts a r h
        cases ts with
        | nil => exact iPower _ _ _ (by simpa [pFactor] using h)
        | cons t rest =>
            cases t with
            | op k =>
                simp only [pFactor] at h
                by_cases hka : k = BinKind.add
                · subst hka
                  simp only [if_pos rfl] at h
                  cases h1 : pFactor n rest with
                  | error e => simp [h1] at h
                  | ok p =>
                      obtain ⟨e1, r1⟩ := p
                      simp only [h1, Except.ok.injEq, Prod.mk.injEq] at h
                      obtain ⟨rfl, rfl⟩ := h
                      obtain ⟨p1, rfl, b1, g1⟩ := iFactor _ _ _ h1
                      exact ⟨.op .add :: p1, by simp, by simp [tokBal_cons, b1, tokWeight],
                        fun ha => by
                          simp only [astArithOnly] at ha
                          simp [List.all_cons, goodTok, allowedBin, g1 ha]⟩
                · by_cases hks : k = BinKind.sub
                  · subst hks
                    simp only [if_neg (by decide : ¬ (BinKind.sub = BinKind.add)), if_pos rfl] at h
                    cases h1 : pFactor n rest with
                    | error e => simp [h1] at h
                    | ok p =>
                        obtain ⟨e1, r1⟩ := p
                        simp only [h1, Except.ok.injEq, Prod.mk.injEq] at h
                        obtain ⟨rfl, rfl⟩ := h
                        obtain ⟨p1, rfl, b1, g1⟩ := iFactor _ _ _ h1
                        exact ⟨.op .sub :: p1, by simp, by simp [tokBal_cons, b1, tokWeight],
                          fun ha => by
                            simp only [astArithOnly] at ha
                            simp [List.all_cons, goodTok, allowedBin, g1 ha]⟩
                  · simp only [if_neg hka, if_neg hks] at h
                    exact iPower _ _ _ h
            | num c => exact iPower _ _ _ (by simpa [pFactor] using h)
            | lparen => exact iPower _ _ _ (by simpa [pFactor] using h)
            | rparen => exact iPower _ _ _ (by simpa [pFactor] using h)
            | ident s => exact iPower _ _ _ (by simpa [pFactor] using h)
            | strTok s => exact iPower _ _ _ (by simpa [pFactor] using h)
            | comma => exact iPower _ _ _ (by simpa [pFactor] using h)
            | semi => exact iPower _ _ _ (by simpa [pFactor] using h)
      -- pPower
      · intro ts a r h
        simp only [pPower] at h
        cases h1 : pPrimary n ts with
        | error e => simp [h1] at h
        | ok p =>
            obtain ⟨b0, r0⟩ := p
            simp only [h1] at h
            obtain ⟨p1, rfl, b1, g1⟩ := iPrimary _ _ _ h1
            cases r0 with
            | nil =>
                simp only [Except.ok.injEq, Prod.mk.injEq] at h
                obtain ⟨rfl, rfl⟩ := h
                exact ⟨p1, by simp, b1, g1⟩
            | cons t rest =>
                cases t with
                | op k =>
                    by_cases hk : k = BinKind.pow
                    · subst hk
                      simp only [if_pos rfl] at h
                      cases h2 : pFactor n rest with
                      | error e => simp [h2] at h
                      | ok p2 =>
                          obtain ⟨e2, r2⟩ := p2
                          simp only [h2, Except.ok.injEq, Prod.mk.injEq] at h
                          obtain ⟨rfl, rfl⟩ := h
                          obtain ⟨p2l, rfl, b2, g2⟩ := iFactor _ _ _ h2
                          refine ⟨p1 ++ .op .pow :: p2l, by simp, ?_, ?_⟩
                          · simp [tokBal_append, tokBal_cons, b1, b2, tokWeight]
                          · intro ha
                            simp only [astArithOnly, Bool.and_eq_true] at ha
                            obtain ⟨⟨_, hb⟩, he⟩ := ha
                            simp [List.all_append, List.all_cons, goodTok, allowedBin,
                              g1 hb, g2 he]
                    · simp only [if_neg hk, Except.ok.injEq, Prod.mk.injEq] at h
                      obtain ⟨rfl, rfl⟩ := h
                      exact ⟨p1, by simp, b1, g1⟩
                | num c =>
                    simp only [Except.ok.injEq, Prod.mk.injEq] at h
                    obtain ⟨rfl, rfl⟩ := h
                    exact ⟨p1, by simp, b1, g1⟩
                | lparen =>
                    simp only [Except.ok.injEq, Prod.mk.injEq] at h
                    obtain ⟨rfl, rfl⟩ := h
                    exact ⟨p1, by simp, b1, g1⟩
                | rparen =>
                    simp only [Except.ok.injEq, Prod.mk.injEq] at h
                    obtain ⟨rfl, rfl⟩ := h
                    exact ⟨p1, by simp, b1, g1⟩
                | ident s =>
                    simp only [Except.ok.injEq, Prod.mk.injEq] at h
                    obtain ⟨rfl, rfl⟩ := h
                    exact ⟨p1, by simp, b1, g1⟩
                | strTok s =>
                    simp only [Except.ok.injEq, Prod.mk.injEq] at h
                    obtain ⟨rfl, rfl⟩ := h
                    exact ⟨p1, by simp, b1, g1⟩
                | comma =>
                    simp only [Except.ok.injEq, Prod.mk.injEq] at h
                    obtain ⟨rfl, rfl⟩ := h
                    exact ⟨p1, by simp, b1, g1⟩
                | semi =>
                    simp only [Except.ok.injEq, Prod.mk.injEq] at h
                    obtain ⟨rfl, rfl⟩ := h
                    exact ⟨p1, by simp, b1, g1⟩
      -- pPrimary
      · intro ts a r h
        simp only [pPrimary] at h
        cases h1 : pAtom n ts with
        | error e => simp [h1] at h
        | ok p =>
            obtain ⟨a0, r0⟩ := p
            simp only [h1] at h
            obtain ⟨p1, rfl, b1, g1⟩ := iAtom _ _ _ h1
            obtain ⟨p2, rfl, b2, g2⟩ := iCall _ _ _ _ h
            refine ⟨p1 ++ p2, by simp, by simp [tokBal_append, b1, b2], ?_⟩
            intro ha
            obtain ⟨rfl, rfl⟩ := g2 ha
            simp [List.all_append, g1 ha]
      -- pCallLoop
      · intro acc ts a r h
        cases ts with
        | nil =>
            simp only [pCallLoop, Except.ok.injEq, Prod.mk.injEq] at h
            obtain ⟨rfl, rfl⟩ := h
            exact ⟨[], by simp, by simp [tokBal], fun ha => ⟨rfl, rfl⟩⟩
        | cons t rest =>
            cases t with
            | lparen =>
                simp only [pCallLoop] at h
                cases rest with
                | nil =>
                    cases h2 : pArgs n [] with
                    | error e => simp [h2] at h
                    | ok p2 =>
                        obtain ⟨k2, r2⟩ := p2
                        simp only [h2] at h
                        obtain ⟨p2l, hp2, b2⟩ := iArgs _ _ _ h2
                        obtain ⟨p3, rfl, b3, g3⟩ := iCall _ _ _ _ h
                        refine ⟨.lparen :: p2l ++ p3, by simp [hp2], ?_, ?_⟩
                        · simp only [tokBal, tokWeight, List.map_append, List.map_cons,
                            List.map_nil, List.sum_append, List.sum_cons, List.sum_nil] at b2 b3 ⊢
                          omega
                        · intro ha
                          obtain ⟨rfl, -⟩ := g3 ha
                          simp [astArithOnly] at ha
                | cons t2 rest2 =>
                    cases t2 with
                    | rparen =>
                        obtain ⟨p3, rfl, b3, g3⟩ := iCall _ _ _ _ h
                        refine ⟨.lparen :: .rparen :: p3, by simp, ?_, ?_⟩
                        · rw [tokBal_cons, tokBal_cons, b3]
                          decide
                        · intro ha
                          obtain ⟨rfl, -⟩ := g3 ha
                          simp [astArithOnly] at ha
                    | num c =>
                        cases h2 : pArgs n (Tok.num c :: rest2) with
                        | error e => simp [h2] at h
                        | ok p2 =>
                            obtain ⟨k2, r2⟩ := p2
                            simp only [h2] at h
                            obtain ⟨p2l, hp2, b2⟩ := iArgs _ _ _ h2
                            obtain ⟨p3, rfl, b3, g3⟩ := iCall _ _ _ _ h
                            refine ⟨.lparen :: p2l ++ p3, by simp [hp2], ?_, ?_⟩
                            · simp only [tokBal, tokWeight, List.map_append, List.map_cons,
                                List.map_nil, List.sum_append, List.sum_cons, List.sum_nil] at b2 b3 ⊢
                              omega
                            · intro ha
                              obtain ⟨rfl, -⟩ := g3 ha
                              simp [astArithOnly] at ha
                    | op k2 =>
                        cases h2 : pArgs n (Tok.op k2 :: rest2) with
                        | error e => simp [h2] at h
                        | ok p2 =>
                            obtain ⟨k3, r2⟩ := p2
                            simp only [h2] at h
                            obtain ⟨p2l, hp2, b2⟩ := iArgs _ _ _ h2
                            obtain ⟨p3, rfl, b3, g3⟩ := iCall _ _ _ _ h
                            refine ⟨.lparen :: p2l ++ p3, by simp [hp2], ?_, ?_⟩
                            · simp only [tokBal, tokWeight, List.map_append, List.map_cons,
                                List.map_nil, List.sum_append, List.sum_cons, List.sum_nil] at b2 b3 ⊢
                              omega
                            · intro ha
                              obtain ⟨rfl, -⟩ := g3 ha
                              simp [astArithOnly] at ha
                    | lparen =>
                        cases h2 : pArgs n (Tok.lparen :: rest2) with
                        | error e => simp [h2] at h
                        | ok p2 =>
                            obtain ⟨k2, r2⟩ := p2
                            simp only [h2] at h
                            obtain ⟨p2l, hp2, b2⟩ := iArgs _ _ _ h2
                            obtain ⟨p3, rfl, b3, g3⟩ := iCall _ _ _ _ h
                            refine ⟨.lparen :: p2l ++ p3, by simp [hp2], ?_, ?_⟩
                            · simp only [tokBal, tokWeight, List.map_append, List.map_cons,
                                List.map_nil, List.sum_append, List.sum_cons, List.sum_nil] at b2 b3 ⊢
                              omega
                            · intro ha
                              obtain ⟨rfl, -⟩ := g3 ha
                              simp [astArithOnly] at ha
                    | ident s =>
                        cases h2 : pArgs n (Tok.ident s :: rest2) with
                        | error e => simp [h2] at h
                        | ok p2 =>
                            obtain ⟨k2, r2⟩ := p2
                            simp only [h2] at h
                            obtain ⟨p2l, hp2, b2⟩ := iArgs _ _ _ h2
                            obtain ⟨p3, rfl, b3, g3⟩ := iCall _ _ _ _ h
                            refine ⟨.lparen :: p2l ++ p3, by simp [hp2], ?_, ?_⟩
                            · simp only [tokBal, tokWeight, List.map_append, List.map_cons,
                                List.map_nil, List.sum_append, List.sum_cons, List.sum_nil] at b2 b3 ⊢
                              omega
                            · intro ha
                              obtain ⟨rfl, -⟩ := g3 ha
                              simp [astArithOnly] at ha
                    | strTok s =>
                        cases h2 : pArgs n (Tok.strTok s :: rest2) with
                        | error e => simp [h2] at h
                        | ok p2 =>
                            obtain ⟨k2, r2⟩ := p2
                            simp only [h2] at h
                            obtain ⟨p2l, hp2, b2⟩ := iArgs _ _ _ h2
                            obtain ⟨p3, rfl, b3, g3⟩ := iCall _ _ _ _ h
                            refine ⟨.lparen :: p2l ++ p3, by simp [hp2], ?_, ?_⟩
                            · simp only [tokBal, tokWeight, List.map_append, List.map_cons,
                                List.map_nil, List.sum_append, List.sum_cons, List.sum_nil] at b2 b3 ⊢
                              omega
                            · intro ha
                              obtain ⟨rfl, -⟩ := g3 ha
                              simp [astArithOnly] at ha
                    | comma =>
                        cases h2 : pArgs n (Tok.comma :: rest2) with
                        | error e => simp [h2] at h
                        | ok p2 =>
                            obtain ⟨k2, r2⟩ := p2
                            simp only [h2] at h
                            obtain ⟨p2l, hp2, b2⟩ := iArgs _ _ _ h2
                            obtain ⟨p3, rfl, b3, g3⟩ := iCall _ _ _ _ h
                            refine ⟨.lparen :: p2l ++ p3, by simp [hp2], ?_, ?_⟩
                            · simp only [tokBal, tokWeight, List.map_append, List.map_cons,
                                List.map_nil, List.sum_append, List.sum_cons, List.sum_nil] at b2 b3 ⊢
                              omega
                            · intro ha
                              obtain ⟨rfl, -⟩ := g3 ha
                              simp [astArithOnly] at ha
                    | semi =>
                        cases h2 : pArgs n (Tok.semi :: rest2) with
                        | error e => simp [h2] at h
                        | ok p2 =>
                            obtain ⟨k2, r2⟩ := p2
                            simp only [h2] at h
                            obtain ⟨p2l, hp2, b2⟩ := iArgs _ _ _ h2
                            obtain ⟨p3, rfl, b3, g3⟩ := iCall _ _ _ _ h
                            refine ⟨.lparen :: p2l ++ p3, by simp [hp2], ?_, ?_⟩
                            · simp only [tokBal, tokWeight, List.map_append, List.map_cons,
                                List.map_nil, List.sum_append, List.sum_cons, List.sum_nil] at b2 b3 ⊢
                              omega
                            · intro ha
                              obtain ⟨rfl, -⟩ := g3 ha
                              simp [astArithOnly] at ha
            | num c =>
                simp only [pCallLoop, Except.ok.injEq, Prod.mk.injEq] at h
                obtain ⟨rfl, rfl⟩ := h
                exact ⟨[], by simp, by simp [tokBal], fun ha => ⟨rfl, rfl⟩⟩
            | op k =>
                simp only [pCallLoop, Except.ok.injEq, Prod.mk.injEq] at h
                obtain ⟨rfl, rfl⟩ := h
                exact ⟨[], by simp, by simp [tokBal], fun ha => ⟨rfl, rfl⟩⟩
            | rparen =>
                simp only [pCallLoop, Except.ok.injEq, Prod.mk.injEq] at h
                obtain ⟨rfl, rfl⟩ := h
                exact ⟨[], by simp, by simp [tokBal], fun ha => ⟨rfl, rfl⟩⟩
            | ident s =>
                simp only [pCallLoop, Except.ok.injEq, Prod.mk.injEq] at h
                obtain ⟨rfl, rfl⟩ := h
                exact ⟨[], by simp, by simp [tokBal], fun ha => ⟨rfl, rfl⟩⟩
            | strTok s =>
                simp only [pCallLoop, Except.ok.injEq, Prod.mk.injEq] at h
                obtain ⟨rfl, rfl⟩ := h
                exact ⟨[], by simp, by simp [tokBal], fun ha => ⟨rfl, rfl⟩⟩
            | comma =>
                simp only [pCallLoop, Except.ok.injEq, Prod.mk.injEq] at h
                obtain ⟨rfl, rfl⟩ := h
                exact ⟨[], by simp, by simp [tokBal], fun ha => ⟨rfl, rfl⟩⟩
            | semi =>
                simp only [pCallLoop, Except.ok.injEq, Prod.mk.injEq] at h
                obtain ⟨rfl, rfl⟩ := h
                exact ⟨[], by simp, by simp [tokBal], fun ha => ⟨rfl, rfl⟩⟩
      -- pArgs
      · intro ts k r h
        simp only [pArgs] at h
        cases h1 : pXor n ts with
        | error e => simp [h1] at h
        | ok p =>
            obtain ⟨a0, r0⟩ := p
            simp only [h1] at h
            obtain ⟨p1, rfl, b1, _⟩ := iXor _ _ _ h1
            cases r0 with
            | nil => simp at h
            | cons t rest =>
                cases t with
                | comma =>
                    cases h2 : pArgs n rest with
                    | error e => simp [h2] at h
                    | ok p2 =>
                        obtain ⟨k2, r2⟩ := p2
                        simp only [h2, Except.ok.injEq, Prod.mk.injEq] at h
                        obtain ⟨rfl, rfl⟩ := h
                        obtain ⟨p2l, rfl, b2⟩ := iArgs _ _ _ h2
                        refine ⟨p1 ++ .comma :: p2l, by simp, ?_⟩
                        simp [tokBal_append, tokBal_cons, b1, b2, tokWeight]
                | rparen =>
                    simp only [Except.ok.injEq, Prod.mk.injEq] at h
                    obtain ⟨rfl, rfl⟩ := h
                    refine ⟨p1 ++ [.rparen], by simp, ?_⟩
                    rw [tokBal_append, b1]
                    decide
                | num c => simp at h
                | op k2 => simp at h
                | lparen => simp at h
                | ident s => simp at h
                | strTok s => simp at h
                | semi => simp at h
      -- pAtom
      · intro ts a r h
        cases ts with
        | nil => simp [pAtom] at h
        | cons t rest =>
            cases t with
            | num c =>
                simp only [pAtom, Except.ok.injEq, Prod.mk.injEq] at h
                obtain ⟨rfl, rfl⟩ := h
                exact ⟨[.num c], by simp, by simp [tokBal, tokWeight], fun _ => by simp [goodTok]⟩
            | ident s =>
                simp only [pAtom] at h
                by_cases h1 : s = "True"
                · subst h1
                  simp only [if_pos rfl, Except.ok.injEq, Prod.mk.injEq] at h
                  obtain ⟨rfl, rfl⟩ := h
                  exact ⟨[.ident "True"], by simp, by simp [tokBal, tokWeight],
                    fun _ => by simp [goodTok]⟩
                · by_cases h2 : s = "False"
                  · subst h2
                    simp only [if_neg (by decide : ¬ ("False" = "True")), if_pos rfl,
                      Except.ok.injEq, Prod.mk.injEq] at h
                    obtain ⟨rfl, rfl⟩ := h
                    exact ⟨[.ident "False"], by simp, by simp [tokBal, tokWeight],
                      fun _ => by simp [goodTok]⟩
                  · by_cases h3 : s = "None"
                    · subst h3
                      simp only [if_neg (by decide : ¬ ("None" = "True")),
                        if_neg (by decide : ¬ ("None" = "False")), if_pos rfl,
                        Except.ok.injEq, Prod.mk.injEq] at h
                      obtain ⟨rfl, rfl⟩ := h
                      exact ⟨[.ident "None"], by simp, by simp [tokBal, tokWeight],
                        fun ha => by simp [astArithOnly] at ha⟩
                    · simp only [if_neg h1, if_neg h2, if_neg h3, Except.ok.injEq,
                        Prod.mk.injEq] at h
                      obtain ⟨rfl, rfl⟩ := h
                      exact ⟨[.ident s], by simp, by simp [tokBal, tokWeight],
                        fun ha => by simp [astArithOnly] at ha⟩
            | strTok s =>
                simp only [pAtom, Except.ok.injEq, Prod.mk.injEq] at h
                obtain ⟨rfl, rfl⟩ := h
                exact ⟨[.strTok s], by simp, by simp [tokBal, tokWeight],
                  fun ha => by simp [astArithOnly] at ha⟩
            | lparen =>
                simp only [pAtom] at h
                cases h1 : pXor n rest with
                | error e => simp [h1] at h
                | ok p =>
                    obtain ⟨e0, r0⟩ := p
                    simp only [h1] at h
                    cases r0 with
                    | nil => simp at h
                    | cons t2 rest2 =>
                        cases t2 with
                        | rparen =>
                            simp only [Except.ok.injEq, Prod.mk.injEq] at h
                            obtain ⟨rfl, rfl⟩ := h
                            obtain ⟨p1, hpre, b1, g1⟩ := iXor _ _ _ h1
                            refine ⟨.lparen :: p1 ++ [.rparen], ?_, ?_, ?_⟩
                            · simp [hpre]
                            · simp only [tokBal, tokWeight, List.map_append, List.map_cons,
                                List.map_nil, List.sum_append, List.sum_cons, List.sum_nil] at b1 ⊢
                              omega
                            · intro ha
                              simp [List.all_cons, List.all_append, goodTok, g1 ha]
                        | num c => simp at h
                        | op k2 => simp at h
                        | lparen => simp at h
                        | ident s => simp at h
                        | strTok s => simp at h
                        | comma => simp at h
                        | semi => simp at h
            | op k => simp [pAtom] at h
            | rparen => simp [pAtom] at h
            | comma => simp [pAtom] at h
            | semi => simp [pAtom] at h

/-- A full parse leaves the token stream balanced, and a pure-arithmetic
result certifies every token benign. -/
theorem pyParse_ok_inv {ts : List Tok} {a : PyAst} (h : pyParse ts = .ok a) :
    tokBal ts = 0 ∧ (astArithOnly a = true → ts.all goodTok = true) := by
  unfold pyParse at h
  cases h1 : pXor (10 * ts.length + 10) ts with
  | error e => simp [h1] at h
  | ok p =>
      obtain ⟨a0, r0⟩ := p
      rw [h1] at h
      cases r0 with
      | nil =>
          simp only [Except.ok.injEq] at h
          subst h
          obtain ⟨pre, hpre, hb, hg⟩ := (parserInvAll (10 * ts.length + 10)).1 _ _ _ h1
          simp only [List.append_nil] at hpre
          subst hpre
          exact ⟨hb, hg⟩
      | cons t r => simp at h

/-- Digit-or-underscore characters are numeric-literal characters. -/
theorem numChar_sub_numLit {c : Char} (h : numChar c = true) : numLitChar c = true := by
  simp only [numChar, Bool.or_eq_true] at h
  rcases h with h | h <;> simp [numLitChar, h]

/-- Hex-digit-or-underscore characters are numeric-literal characters. -/
theorem hexChar_sub_numLit {c : Char} (h : (isHexDigit c || c = '_') = true) :
    numLitChar c = true := by
  simp only [isHexDigit, numLitChar, Bool.or_eq_true, Bool.and_eq_true,
    decide_eq_true_eq] at h ⊢
  tauto

/-- Octal-digit-or-underscore characters are numeric-literal characters. -/
theorem octChar_sub_numLit {c : Char} (h : (isOctDigit c || c = '_') = true) :
    numLitChar c = true := by
  simp only [isOctDigit, Bool.or_eq_true, Bool.and_eq_true, decide_eq_true_eq] at h
  rcases h with ⟨h1, h2⟩ | h
  · have hd : c.isDigit = true := by
      simp only [Char.isDigit, Bool.and_eq_true, decide_eq_true_eq]
      exact ⟨h1, le_trans h2 (show ('7' : Char) ≤ '9' by decide)⟩
    simp [numLitChar, hd]
  · simp [numLitChar, h]

/-- Binary-digit-or-underscore characters are numeric-literal characters. -/
theorem binChar_sub_numLit {c : Char} (h : (isBinDigit c || c = '_') = true) :
    numLitChar c = true := by
  simp only [isBinDigit, Bool.or_eq_true, decide_eq_true_eq] at h
  rcases h with (h | h) | h <;> subst h <;> decide

/-- `finishNumber` never consumes further input: on success it hands back
exactly the `rest` it was given. -/
theorem finishNumber_rest {ip fp ep : List Char} {hasDot hasExp negExp : Bool}
    {rest : List Char} {k : PyConst} {rest' : List Char}
    (h : finishNumber ip fp ep hasDot hasExp negExp rest = .ok (k, rest')) :
    rest' = rest := by
  unfold finishNumber at h
  repeat' split at h
  all_goals try simp_all
  all_goals
    (rcases ite_eq_iff.mp h with ⟨-, h⟩ | ⟨-, h⟩ <;> simp_all)

/-- Every element of a `takeWhile p` prefix satisfies any predicate implied
by `p`. -/
theorem all_takeWhile_mono {q : Char → Bool} (p : Char → Bool) (l : List Char)
    (hpq : ∀ c, p c = true → q c = true) : ((l.takeWhile p).all q) = true := by
  induction l with
  | nil => rfl
  | cons c cs ih =>
      by_cases hc : p c = true
      · simp [List.takeWhile_cons, hc, ih, hpq c hc]
      · simp [List.takeWhile_cons, hc]

/-- `lexExpPart` consumes only exponent characters before handing the rest
back. -/
theorem lexExpPart_consumed {ip fp : List Char} {hasDot : Bool} {r2 : List Char}
    {k : PyConst} {rest : List Char}
    (h : lexExpPart ip fp hasDot r2 = .ok (k, rest)) :
    ∃ pre, r2 = pre ++ rest ∧ pre.all numLitChar = true := by
  cases r2 with
  | nil =>
      simp only [lexExpPart] at h
      exact ⟨[], by simp [finishNumber_rest h], by simp⟩
  | cons c r =>
      simp only [lexExpPart] at h
      by_cases hc : (c = 'e' || c = 'E') = true
      · rw [if_pos hc] at h
        have hce : numLitChar c = true := by
          rcases Bool.or_eq_true _ _ |>.mp hc with h1 | h1 <;>
            rw [decide_eq_true_eq] at h1 <;> subst h1 <;> decide
        cases r with
        | nil => simp at h
        | cons s r' =>
            simp only [] at h
            by_cases hs : (s = '+' || s = '-') = true
            · rw [if_pos hs] at h
              have hse : numLitChar s = true := by
                rcases Bool.or_eq_true _ _ |>.mp hs with h1 | h1 <;>
                  rw [decide_eq_true_eq] at h1 <;> subst h1 <;> decide
              have hr := finishNumber_rest h
              refine ⟨c :: s :: r'.takeWhile numChar, ?_, ?_⟩
              · rw [hr]
                simp only [List.cons_append]
                rw [List.takeWhile_append_dropWhile]
              · simp only [List.all_cons, hce, hse, Bool.true_and]
                rw [List.all_eq_true]
                intro x hx
                exact numChar_sub_numLit (List.mem_takeWhile_imp hx)
            · rw [if_neg hs] at h
              have hr := finishNumber_rest h
              refine ⟨c :: (s :: r').takeWhile numChar, ?_, ?_⟩
              · rw [hr]
                simp only [List.cons_append]
                rw [List.takeWhile_append_dropWhile]
              · simp only [List.all_cons, hce, Bool.true_and]
                rw [List.all_eq_true]
                intro x hx
                exact numChar_sub_numLit (List.mem_takeWhile_imp hx)
      · rw [if_neg hc] at h
        exact ⟨[], by simp [finishNumber_rest h], by simp⟩

/-- `lexDecimal` consumes only numeric-literal characters before handing the
rest back. -/
theorem lexDecimal_consumed {cs : List Char} {k : PyConst} {rest : List Char}
    (h : lexDecimal cs = .ok (k, rest)) :
    ∃ pre, cs = pre ++ rest ∧ pre.all numLitChar = true := by
  simp only [lexDecimal] at h
  have hip : (cs.takeWhile numChar).all numLitChar = true := by
    rw [List.all_eq_true]
    intro x hx
    exact numChar_sub_numLit (List.mem_takeWhile_imp hx)
  split at h
  next r heq =>
      obtain ⟨pre2, hpre2, hall2⟩ := lexExpPart_consumed h
      refine ⟨cs.takeWhile numChar ++ '.' :: (r.takeWhile numChar ++ pre2), ?_, ?_⟩
      · conv_lhs => rw [← List.takeWhile_append_dropWhile numChar cs, heq,
          ← List.takeWhile_append_dropWhile numChar r, hpre2]
        simp
      · simp only [List.all_append, List.all_cons, Bool.and_eq_true]
        refine ⟨hip, by decide, ?_, hall2⟩
        rw [List.all_eq_true]
        intro x hx
        exact numChar_sub_numLit (List.mem_takeWhile_imp hx)
  next heq =>
      obtain ⟨pre2, hpre2, hall2⟩ := lexExpPart_consumed h
      refine ⟨cs.takeWhile numChar ++ pre2, ?_, by simp [List.all_append, hip, hall2]⟩
      conv_lhs => rw [← List.takeWhile_append_dropWhile numChar cs, hpre2]
      simp

/-- `lexRadix` consumes only radix digits and separators before handing the
rest back. -/
theorem lexRadix_consumed {b : ℕ} {isD : Char → Bool} {lit : String}
    {cs : List Char} {k : PyConst} {rest : List Char}
    (h : lexRadix b isD lit cs = .ok (k, rest)) :
    rest = cs.dropWhile (fun c => isD c || c = '_') := by
  simp only [lexRadix] at h
  repeat' split at h
  all_goals simp_all

/-- `lexNumber` consumes only numeric-literal characters before handing the
rest back. -/
theorem lexNumber_consumed {cs : List Char} {k : PyConst} {rest : List Char}
    (h : lexNumber cs = .ok (k, rest)) :
    ∃ pre, cs = pre ++ rest ∧ pre.all numLitChar = true := by
  unfold lexNumber at h
  split at h
  next c rest0 =>
      by_cases hx : (c = 'x' || c = 'X') = true
      · rw [if_pos hx] at h
        have hrest := lexRadix_consumed h
        refine ⟨'0' :: c :: rest0.takeWhile (fun d => isHexDigit d || d = '_'), ?_, ?_⟩
        · rw [hrest, List.cons_append, List.cons_append,
            List.takeWhile_append_dropWhile]
        · simp only [List.all_cons, Bool.and_eq_true]
          refine ⟨by decide, ?_, ?_⟩
          · rcases Bool.or_eq_true _ _ |>.mp hx with h1 | h1 <;>
              rw [decide_eq_true_eq] at h1 <;> subst h1 <;> decide
          · exact all_takeWhile_mono _ _ (fun d hd => hexChar_sub_numLit hd)
      · rw [if_neg hx] at h
        by_cases ho : (c = 'o' || c = 'O') = true
        · rw [if_pos ho] at h
          have hrest := lexRadix_consumed h
          refine ⟨'0' :: c :: rest0.takeWhile (fun d => isOctDigit d || d = '_'), ?_, ?_⟩
          · rw [hrest, List.cons_append, List.cons_append,
              List.takeWhile_append_dropWhile]
          · simp only [List.all_cons, Bool.and_eq_true]
            refine ⟨by decide, ?_, ?_⟩
            · rcases Bool.or_eq_true _ _ |>.mp ho with h1 | h1 <;>
                rw [decide_eq_true_eq] at h1 <;> subst h1 <;> decide
            · exact all_takeWhile_mono _ _ (fun d hd => octChar_sub_numLit hd)
        · rw [if_neg ho] at h
          by_cases hb : (c = 'b' || c = 'B') = true
          · rw [if_pos hb] at h
            have hrest := lexRadix_consumed h
            refine ⟨'0' :: c :: rest0.takeWhile (fun d => isBinDigit d || d = '_'), ?_, ?_⟩
            · rw [hrest, List.cons_append, List.cons_append,
                List.takeWhile_append_dropWhile]
            · simp only [List.all_cons, Bool.and_eq_true]
              refine ⟨by decide, ?_, ?_⟩
              · rcases Bool.or_eq_true _ _ |>.mp hb with h1 | h1 <;>
                  rw [decide_eq_true_eq] at h1 <;> subst h1 <;> decide
              · exact all_takeWhile_mono _ _ (fun d hd => binChar_sub_numLit hd)
          · rw [if_neg hb] at h
            exact lexDecimal_consumed h
  next => exact lexDecimal_consumed h

set_option maxHeartbeats 2000000 in
/-- Numeric-literal characters are benign. -/
theorem numLitChar_goodChar {c : Char} (h : numLitChar c = true) : goodChar c = true := by
  simp only [numLitChar, goodChar, Bool.or_eq_true, Bool.and_eq_true,
    decide_eq_true_eq] at h ⊢
  tauto

/-- Numeric-literal characters are never the comment character. -/
theorem numLitChar_ne_hash {c : Char} (h : numLitChar c = true) : c ≠ '#' := by
  intro hc
  subst hc
  simp [numLitChar] at h

/-- Comment stripping only drops characters. -/
theorem commentStripGo_subset {c : Char} :
    ∀ (st : Bool) (zs : List Char), c ∈ commentStripGo st zs → c ∈ zs := by
  intro st zs
  induction zs generalizing st with
  | nil => simp [commentStripGo]
  | cons z rest ih =>
      intro h
      cases st with
      | true =>
          simp only [commentStripGo] at h
          by_cases hz : z = '\n'
          · rw [if_pos hz] at h
            rcases List.mem_cons.mp h with h | h
            · simp [h]
            · exact List.mem_cons_of_mem _ (ih false h)
          · rw [if_neg hz] at h
            exact List.mem_cons_of_mem _ (ih true h)
      | false =>
          simp only [commentStripGo] at h
          by_cases hz : z = '#'
          · rw [if_pos hz] at h
            exact List.mem_cons_of_mem _ (ih true h)
          · rw [if_neg hz] at h
            rcases List.mem_cons.mp h with h | h
            · simp [h]
            · exact List.mem_cons_of_mem _ (ih false h)

/-- Inside a comment, stripping is the same as skipping straight to the next
newline (exactly what the tokenizer does at a `#`). -/
theorem commentStripGo_true_eq (rest : List Char) :
    commentStripGo true rest = commentStripGo false (rest.dropWhile (fun d => d ≠ '\n')) := by
  induction rest with
  | nil => rfl
  | cons c rest ih =>
      by_cases hc : c = '\n'
      · subst hc
        simp [commentStripGo, List.dropWhile_cons]
      · simp only [commentStripGo, if_neg hc, List.dropWhile_cons]
        rw [if_pos (by simp [hc])]
        exact ih

/-- Hash-free prefixes pass through comment stripping untouched. -/
theorem commentStripGo_append_of_no_hash {xs : List Char}
    (hx : ∀ c ∈ xs, c ≠ '#') (ys : List Char) :
    commentStripGo false (xs ++ ys) = xs ++ commentStripGo false ys := by
  induction xs with
  | nil => rfl
  | cons x xs ih =>
      have hx0 : x ≠ '#' := hx x (by simp)
      simp only [List.cons_append, commentStripGo, if_neg hx0]
      exact congrArg (x :: ·) (ih (fun c hc => hx c (by simp [hc])))

/-- Characters surviving comment stripping of a concatenation come from the
stripped first part or anywhere in the second. -/
theorem commentStripGo_append_sub {c : Char} :
    ∀ (st : Bool) (xs ys : List Char), c ∈ commentStripGo st (xs ++ ys) →
      c ∈ commentStripGo st xs ∨ c ∈ ys := by
  intro st xs
  induction xs generalizing st with
  | nil => exact fun ys h => Or.inr (commentStripGo_subset _ _ h)
  | cons x xs ih =>
      intro ys h
      cases st with
      | true =>
          simp only [List.cons_append, commentStripGo] at h ⊢
          by_cases hx : x = '\n'
          · rw [if_pos hx] at h ⊢
            rcases List.mem_cons.mp h with h | h
            · exact Or.inl (by simp [h])
            · rcases ih false ys h with h | h
              · exact Or.inl (List.mem_cons_of_mem _ h)
              · exact Or.inr h
          · rw [if_neg hx] at h ⊢
            exact ih true ys h
      | false =>
          simp only [List.cons_append, commentStripGo] at h ⊢
          by_cases hx : x = '#'
          · rw [if_pos hx] at h ⊢
            exact ih true ys h
          · rw [if_neg hx] at h ⊢
            rcases List.mem_cons.mp h with h | h
            · exact Or.inl (by simp [h])
            · rcases ih false ys h with h | h
              · exact Or.inl (List.mem_cons_of_mem _ h)
              · exact Or.inr h

/-- Membership in the comment-stripped tail of a non-hash head. -/
theorem memCommentStrip_cons_of_ne_hash {c d : Char} {cs : List Char} (hc : c ≠ '#')
    (hd : d ∈ commentStrip (c :: cs)) : d = c ∨ d ∈ commentStrip cs := by
  simp only [commentStrip, commentStripGo, if_neg hc] at hd
  exact List.mem_cons.mp hd

/-- If the tokenizer succeeds and produces only benign tokens, then every
character outside comments is benign: this is the tokenizer half of the
allow-list security property. -/
theorem lexLoop_chars : ∀ (n : ℕ) (cs : List Char) (toks : List Tok),
    lexLoop n cs = .ok toks → toks.all goodTok = true →
    ∀ c ∈ commentStrip cs, goodChar c = true := by
  intro n
  induction n with
  | zero => intro cs toks h; simp [lexLoop] at h
  | succ n ih =>
      intro cs toks h hall
      have single : ∀ (c0 : Char) (cs' : List Char) (ts' : List Tok),
          lexLoop n cs' = .ok ts' → ts'.all goodTok = true → goodChar c0 = true →
          c0 ≠ '#' → ∀ d ∈ commentStrip (c0 :: cs'), goodChar d = true := by
        intro c0 cs' ts' hrest hall' hg hne d hd
        rcases memCommentStrip_cons_of_ne_hash hne hd with rfl | hd'
        · exact hg
        · exact ih cs' ts' hrest hall' d hd'
      cases cs with
      | nil => intro c hc; simp [commentStrip, commentStripGo] at hc
      | cons c0 cs' =>
          simp only [lexLoop] at h
          by_cases h1 : pyWsChar c0 = true
          · rw [if_pos h1] at h
            refine single c0 cs' toks h hall ?_ ?_
            · simp [goodChar, h1]
            · intro he
              subst he
              exact absurd h1 (by decide)
          · rw [if_neg h1] at h
            by_cases h2 : c0 = '#'
            · rw [if_pos h2] at h
              subst h2
              intro d hd
              have hcs : commentStrip ('#' :: cs') =
                  commentStrip (cs'.dropWhile (fun d => d ≠ '\n')) := by
                simp only [commentStrip, commentStripGo, if_pos rfl]
                exact commentStripGo_true_eq cs'
              rw [hcs] at hd
              exact ih _ toks h hall d hd
            · rw [if_neg h2] at h
              by_cases h3 : (c0.isDigit || (c0 = '.' && headIsDigit cs')) = true
              · rw [if_pos h3] at h
                cases hnum : lexNumber (c0 :: cs') with
                | error e => rw [hnum] at h; cases h
                | ok p =>
                    obtain ⟨k, rest⟩ := p
                    simp only [hnum] at h
                    cases hrest : lexLoop n rest with
                    | error e => rw [hrest] at h; simp [lexCons] at h
                    | ok ts' =>
                        rw [hrest] at h
                        simp only [lexCons, Except.ok.injEq] at h
                        subst h
                        simp only [List.all_cons, Bool.and_eq_true] at hall
                        obtain ⟨-, hall'⟩ := hall
                        obtain ⟨pre, hpre, hprechars⟩ := lexNumber_consumed hnum
                        rw [List.all_eq_true] at hprechars
                        intro d hd
                        rw [hpre] at hd
                        have hnh : ∀ x ∈ pre, x ≠ '#' := fun x hx =>
                          numLitChar_ne_hash (hprechars x hx)
                        simp only [commentStrip] at hd
                        rw [commentStripGo_append_of_no_hash hnh rest] at hd
                        rcases List.mem_append.mp hd with hd | hd
                        · exact numLitChar_goodChar (hprechars d hd)
                        · exact ih rest ts' hrest hall' d hd
              · rw [if_neg h3] at h
                by_cases h4 : identStart c0 = true
                · rw [if_pos h4] at h
                  cases hrest : lexLoop n ((c0 :: cs').dropWhile identChar) with
                  | error e => rw [hrest] at h; simp [lexCons] at h
                  | ok ts' =>
                      rw [hrest] at h
                      simp only [lexCons, Except.ok.injEq] at h
                      subst h
                      simp only [List.all_cons, Bool.and_eq_true] at hall
                      obtain ⟨hgood, hall'⟩ := hall
                      simp only [goodTok, Bool.or_eq_true, decide_eq_true_eq] at hgood
                      intro d hd
                      have hsplit := List.takeWhile_append_dropWhile identChar (c0 :: cs')
                      have hpre : (c0 :: cs').takeWhile identChar = "True".data ∨
                          (c0 :: cs').takeWhile identChar = "False".data := by
                        rcases hgood with hg | hg
                        · exact Or.inl (congrArg String.data hg)
                        · exact Or.inr (congrArg String.data hg)
                      have htrue : ∀ x ∈ "True".data, goodChar x = true ∧ x ≠ '#' := by decide
                      have hfalse : ∀ x ∈ "False".data, goodChar x = true ∧ x ≠ '#' := by decide
                      have hgoodpre : ∀ x ∈ (c0 :: cs').takeWhile identChar,
                          goodChar x = true ∧ x ≠ '#' := by
                        intro x hx
                        rcases hpre with hp | hp <;> rw [hp] at hx
                        · exact htrue x hx
                        · exact hfalse x hx
                      rw [← hsplit] at hd
                      simp only [commentStrip] at hd
                      rw [commentStripGo_append_of_no_hash
                        (fun x hx => (hgoodpre x hx).2) _] at hd
                      rcases List.mem_append.mp hd with hd | hd
                      · exact (hgoodpre d hd).1
                      · exact ih _ ts' hrest hall' d hd
                · rw [if_neg h4] at h
                  by_cases h5 : (c0 = '\'' || c0 = '"') = true
                  · rw [if_pos h5] at h
                    cases hdw : cs'.dropWhile (fun d => d ≠ c0) with
                    | nil => rw [hdw] at h; cases h
                    | cons x rest' =>
                        simp only [hdw] at h
                        cases hrest : lexLoop n rest' with
                        | error e => rw [hrest] at h; simp [lexCons] at h
                        | ok ts' =>
                            rw [hrest] at h
                            simp only [lexCons, Except.ok.injEq] at h
                            subst h
                            simp [List.all_cons, goodTok] at hall
                  · rw [if_neg h5] at h
                    by_cases h6 : c0 = '('
                    · rw [if_pos h6] at h
                      subst h6
                      cases hrest : lexLoop n cs' with
                      | error e => rw [hrest] at h; simp [lexCons] at h
                      | ok ts' =>
                          rw [hrest] at h
                          simp only [lexCons, Except.ok.injEq] at h
                          subst h
                          simp only [List.all_cons, Bool.and_eq_true] at hall
                          exact single _ _ _ hrest hall.2 (by decide) (by decide)
                    · rw [if_neg h6] at h
                      by_cases h7 : c0 = ')'
                      · rw [if_pos h7] at h
                        subst h7
                        cases hrest : lexLoop n cs' with
                        | error e => rw [hrest] at h; simp [lexCons] at h
                        | ok ts' =>
                            rw [hrest] at h
                            simp only [lexCons, Except.ok.injEq] at h
                            subst h
                            simp only [List.all_cons, Bool.and_eq_true] at hall
                            exact single _ _ _ hrest hall.2 (by decide) (by decide)
                      · rw [if_neg h7] at h
                        by_cases h8 : c0 = ','
                        · rw [if_pos h8] at h
                          cases hrest : lexLoop n cs' with
                          | error e => rw [hrest] at h; simp [lexCons] at h
                          | ok ts' =>
                              rw [hrest] at h
                              simp only [lexCons, Except.ok.injEq] at h
                              subst h
                              simp [List.all_cons, goodTok] at hall
                        · rw [if_neg h8] at h
                          by_cases h9 : c0 = ';'
                          · rw [if_pos h9] at h
                            cases hrest : lexLoop n cs' with
                            | error e => rw [hrest] at h; simp [lexCons] at h
                            | ok ts' =>
                                rw [hrest] at h
                                simp only [lexCons, Except.ok.injEq] at h
                                subst h
                                simp [List.all_cons, goodTok] at hall
                          · rw [if_neg h9] at h
                            by_cases h10 : c0 = '+'
                            · rw [if_pos h10] at h
                              subst h10
                              cases hrest : lexLoop n cs' with
                              | error e => rw [hrest] at h; simp [lexCons] at h
                              | ok ts' =>
                                  rw [hrest] at h
                                  simp only [lexCons, Except.ok.injEq] at h
                                  subst h
                                  simp only [List.all_cons, Bool.and_eq_true] at hall
                                  exact single _ _ _ hrest hall.2 (by decide) (by decide)
                            · rw [if_neg h10] at h
                              by_cases h11 : c0 = '-'
                              · rw [if_pos h11] at h
                                subst h11
                                cases hrest : lexLoop n cs' with
                                | error e => rw [hrest] at h; simp [lexCons] at h
                                | ok ts' =>
                                    rw [hrest] at h
                                    simp only [lexCons, Except.ok.injEq] at h
                                    subst h
                                    simp only [List.all_cons, Bool.and_eq_true] at hall
                                    exact single _ _ _ hrest hall.2 (by decide) (by decide)
                              · rw [if_neg h11] at h
                                by_cases h12 : c0 = '%'
                                · rw [if_pos h12] at h
                                  subst h12
                                  cases hrest : lexLoop n cs' with
                                  | error e => rw [hrest] at h; simp [lexCons] at h
                                  | ok ts' =>
                                      rw [hrest] at h
                                      simp only [lexCons, Except.ok.injEq] at h
                                      subst h
                                      simp only [List.all_cons, Bool.and_eq_true] at hall
                                      exact single _ _ _ hrest hall.2 (by decide) (by decide)
                                · rw [if_neg h12] at h
                                  by_cases h13 : c0 = '^'
                                  · rw [if_pos h13] at h
                                    cases hrest : lexLoop n cs' with
                                    | error e => rw [hrest] at h; simp [lexCons] at h
                                    | ok ts' =>
                                        rw [hrest] at h
                                        simp only [lexCons, Except.ok.injEq] at h
                                        subst h
                                        simp [List.all_cons, goodTok, allowedBin] at hall
                                  · rw [if_neg h13] at h
                                    by_cases h14 : c0 = '*'
                                    · rw [if_pos h14] at h
                                      subst h14
                                      split at h
                                      next _ cs2 =>
                                          cases hrest : lexLoop n cs2 with
                                          | error e => rw [hrest] at h; simp [lexCons] at h
                                          | ok ts' =>
                                              rw [hrest] at h
                                              simp only [lexCons, Except.ok.injEq] at h
                                              subst h
                                              simp only [List.all_cons, Bool.and_eq_true] at hall
                                              intro d hd
                                              rcases memCommentStrip_cons_of_ne_hash
                                                (show ('*' : Char) ≠ '#' by decide) hd with rfl | hd'
                                              · decide
                                              rcases memCommentStrip_cons_of_ne_hash
                                                (show ('*' : Char) ≠ '#' by decide) hd' with rfl | hd''
                                              · decide
                                              · exact ih cs2 ts' hrest hall.2 d hd''
                                      next hne =>
                                          cases hrest : lexLoop n cs' with
                                          | error e => rw [hrest] at h; simp [lexCons] at h
                                          | ok ts' =>
                                              rw [hrest] at h
                                              simp only [lexCons, Except.ok.injEq] at h
                                              subst h
                                              simp only [List.all_cons, Bool.and_eq_true] at hall
                                              exact single _ _ _ hrest hall.2 (by decide) (by decide)
                                    · rw [if_neg h14] at h
                                      by_cases h15 : c0 = '/'
                                      · rw [if_pos h15] at h
                                        subst h15
                                        split at h
                                        next _ cs2 =>
                                            cases hrest : lexLoop n cs2 with
                                            | error e => rw [hrest] at h; simp [lexCons] at h
                                            | ok ts' =>
                                                rw [hrest] at h
                                                simp only [lexCons, Except.ok.injEq] at h
                                                subst h
                                                simp only [List.all_cons, Bool.and_eq_true] at hall
                                                intro d hd
                                                rcases memCommentStrip_cons_of_ne_hash
                                                  (show ('/' : Char) ≠ '#' by decide) hd with rfl | hd'
                                                · decide
                                                rcases memCommentStrip_cons_of_ne_hash
                                                  (show ('/' : Char) ≠ '#' by decide) hd' with rfl | hd''
                                                · decide
                                                · exact ih cs2 ts' hrest hall.2 d hd''
                                        next hne =>
                                            cases hrest : lexLoop n cs' with
                                            | error e => rw [hrest] at h; simp [lexCons] at h
                                            | ok ts' =>
                                                rw [hrest] at h
                                                simp only [lexCons, Except.ok.injEq] at h
                                                subst h
                                                simp only [List.all_cons, Bool.and_eq_true] at hall
                                                exact single _ _ _ hrest hall.2 (by decide) (by decide)
                                      · rw [if_neg h15] at h
                                        cases h

/-- `str.strip` decomposition: the original string is whitespace, then the
stripped core, then whitespace. -/
theorem pyStrip_decomp (cs : List Char) :
    ∃ w1 w2, cs = w1 ++ (pyStrip cs ++ w2) ∧ (∀ c ∈ w1, pyWsChar c = true) ∧
      (∀ c ∈ w2, pyWsChar c = true) := by
  refine ⟨cs.takeWhile pyWsChar,
    ((cs.dropWhile pyWsChar).reverse.takeWhile pyWsChar).reverse, ?_, ?_, ?_⟩
  · conv_lhs => rw [← List.takeWhile_append_dropWhile pyWsChar cs]
    congr 1
    calc cs.dropWhile pyWsChar
        = ((cs.dropWhile pyWsChar).reverse).reverse := by rw [List.reverse_reverse]
      _ = ((cs.dropWhile pyWsChar).reverse.takeWhile pyWsChar ++
            (cs.dropWhile pyWsChar).reverse.dropWhile pyWsChar).reverse := by
          rw [List.takeWhile_append_dropWhile]
      _ = pyStrip cs ++ ((cs.dropWhile pyWsChar).reverse.takeWhile pyWsChar).reverse := by
          rw [List.reverse_append]
          rfl
  · exact fun c hc => List.mem_takeWhile_imp hc
  · intro c hc
    rw [List.mem_reverse] at hc
    exact List.mem_takeWhile_imp hc

/-- Whenever `safe_eval_expr` returns a value, every character of the input
outside comments is whitespace, a digit, an operator or parenthesis symbol,
or a character of a numeric literal or of the constants `True`/`False`. -/
theorem safe_eval_ok_chars {s : String} {v : Value} (h : safe_eval_expr s = .ok v) :
    ∀ c ∈ commentStrip s.data, goodChar c = true := by
  unfold safe_eval_expr at h
  by_cases he : (pyStrip s.data).isEmpty
  · rw [if_pos he] at h
    cases h
  · rw [if_neg he] at h
    cases htok : pyTokenize (pyStrip s.data) with
    | error d => rw [htok] at h; cases h
    | ok toks =>
        simp only [htok] at h
        cases hp : pyParse toks with
        | error d => rw [hp] at h; cases h
        | ok a =>
            rw [hp] at h
            have harith := evalAst_ok_arithOnly a v h
            have hgood := (pyParse_ok_inv hp).2 harith
            have hchars := lexLoop_chars ((pyStrip s.data).length + 1) (pyStrip s.data)
              toks htok hgood
            obtain ⟨w1, w2, hdecomp, hw1, hw2⟩ := pyStrip_decomp s.data
            intro c hc
            rw [hdecomp] at hc
            have hw1h : ∀ x ∈ w1, x ≠ '#' := by
              intro x hx hxe
              subst hxe
              exact absurd (hw1 _ hx) (by decide)
            simp only [commentStrip] at hc
            rw [commentStripGo_append_of_no_hash hw1h] at hc
            rcases List.mem_append.mp hc with hc | hc
            · simp [goodChar, hw1 c hc]
            · rcases commentStripGo_append_sub false (pyStrip s.data) w2 hc with hc | hc
              · exact hchars c hc
              · simp [goodChar, hw2 c hc]

/-- All-whitespace input strips to nothing, so `safe_eval_expr` raises the
empty-expression error. -/
theorem safe_eval_all_ws {s : String} (h : ∀ c ∈ s.data, pyWsChar c = true) :
    safe_eval_expr s = .error .emptyExpr := by
  have hgen : ∀ l : List Char, (∀ c ∈ l, pyWsChar c = true) →
      l.dropWhile pyWsChar = [] := by
    intro l
    induction l with
    | nil => intro _; rfl
    | cons c cs ih =>
        intro hl
        rw [List.dropWhile_cons, if_pos (hl c (List.mem_cons_self c cs))]
        exact ih (fun x hx => hl x (List.mem_cons_of_mem c hx))
  have h1 : s.data.dropWhile pyWsChar = [] := hgen s.data h
  have hstrip : pyStrip s.data = [] := by
    simp [pyStrip, h1]
  unfold safe_eval_expr
  rw [hstrip]
  rfl

/-- Flooring division against a negative divisor mirrors itself against the
positive one. -/
theorem fdiv_negSucc (a : ℤ) (n : ℕ) :
    Int.fdiv a (Int.negSucc n) = Int.fdiv (-a) (Int.ofNat (n + 1)) := by
  match a with
  | .ofNat 0 => rfl
  | .ofNat (m + 1) => rfl
  | .negSucc m => rfl

/-- `Int.fdiv` is the floor of the rational quotient. -/
theorem fdiv_eq_floor (a b : ℤ) (hb : b ≠ 0) :
    Int.fdiv a b = ⌊(a : ℚ) / (b : ℚ)⌋ := by
  match b, hb with
  | Int.ofNat (n + 1), _ =>
      rw [show Int.ofNat (n + 1) = ((n + 1 : ℕ) : ℤ) from rfl,
        Int.fdiv_eq_ediv _ (Int.natCast_nonneg _), Int.cast_natCast]
      have hfl := Rat.floor_intCast_div_natCast a (n + 1)
      rw [← hfl]
  | Int.negSucc n, _ =>
      rw [fdiv_negSucc]
      have hneg : ((Int.negSucc n : ℤ) : ℚ) = -((n + 1 : ℕ) : ℚ) := by
        rw [Int.negSucc_eq]
        push_cast
        ring
      rw [hneg, div_neg, ← neg_div]
      rw [show Int.ofNat (n + 1) = ((n + 1 : ℕ) : ℤ) from rfl,
        Int.fdiv_eq_ediv _ (Int.natCast_nonneg _)]
      have hfl := Rat.floor_intCast_div_natCast (-a) (n + 1)
      rw [Int.cast_neg] at hfl
      rw [← hfl]

/-- Inversion for a successful binary-operation evaluation. -/
theorem evalAst_binOp_ok {k : BinKind} {l r : PyAst} {v : Value}
    (h : evalAst (.binOp k l r) = .ok v) :
    allowedBin k = true ∧ ∃ lv rv, evalAst l = .ok lv ∧ evalAst r = .ok rv ∧
      applyBin k lv rv = .ok v := by
  simp only [evalAst] at h
  by_cases hk : allowedBin k
  · rw [if_pos hk] at h
    cases hl : evalAst l with
    | error e => rw [hl] at h; cases h
    | ok lv =>
        rw [hl] at h
        cases hr : evalAst r with
        | error e => rw [hr] at h; cases h
        | ok rv =>
            rw [hr] at h
            exact ⟨hk, lv, rv, rfl, rfl, h⟩
  · rw [if_neg hk] at h
    cases h

/-- Inversion for a successful unary-operation evaluation. -/
theorem evalAst_unaryOp_ok {op : UnKind} {e : PyAst} {v : Value}
    (h : evalAst (.unaryOp op e) = .ok v) :
    ∃ ev, evalAst e = .ok ev ∧ applyUn op ev = .ok v := by
  simp only [evalAst] at h
  cases he : evalAst e with
  | error e2 => rw [he] at h; cases h
  | ok ev => rw [he] at h; exact ⟨ev, rfl, h⟩

/-- Character order transfers to code points. -/
theorem char_le_nat {a b : Char} (h : a ≤ b) : a.toNat ≤ b.toNat := by
  rw [Char.le_def, UInt32.le_def, BitVec.le_def] at h
  exact h

/-- Code-point bounds of a decimal digit. -/
theorem char_isDigit_bounds {c : Char} (h : c.isDigit = true) :
    48 ≤ c.toNat ∧ c.toNat ≤ 57 := by
  simp only [Char.isDigit, ge_iff_le, Bool.and_eq_true, decide_eq_true_eq] at h
  obtain ⟨h1, h2⟩ := h
  rw [UInt32.le_def, BitVec.le_def] at h1 h2
  exact ⟨h1, h2⟩

/-- Code-point bounds of a letter. -/
theorem char_isAlpha_bounds {c : Char} (h : c.isAlpha = true) :
    (65 ≤ c.toNat ∧ c.toNat ≤ 90) ∨ (97 ≤ c.toNat ∧ c.toNat ≤ 122) := by
  simp only [Char.isAlpha, Char.isUpper, Char.isLower, ge_iff_le, Bool.or_eq_true,
    Bool.and_eq_true, decide_eq_true_eq] at h
  rcases h with ⟨h1, h2⟩ | ⟨h1, h2⟩ <;>
    rw [UInt32.le_def, BitVec.le_def] at h1 h2
  · exact Or.inl ⟨h1, h2⟩
  · exact Or.inr ⟨h1, h2⟩

/-- Code points of the Python whitespace set. -/
theorem pyWs_toNat {c : Char} (h : pyWsChar c = true) :
    c.toNat = 32 ∨ c.toNat = 9 ∨ c.toNat = 10 ∨ c.toNat = 13 ∨ c.toNat = 11 ∨
    c.toNat = 12 ∨ c.toNat = 28 ∨ c.toNat = 29 ∨ c.toNat = 30 ∨ c.toNat = 31 ∨
    c.toNat = 133 ∨ c.toNat = 160 ∨ c.toNat = 5760 ∨ c.toNat = 8232 ∨
    c.toNat = 8233 ∨ c.toNat = 8239 ∨ c.toNat = 8287 ∨ c.toNat = 12288 ∨
    (8192 ≤ c.toNat ∧ c.toNat ≤ 8202) := by
  simp only [pyWsChar, Bool.or_eq_true, Bool.and_eq_true, List.contains_eq_any_beq,
    List.any_eq_true, beq_iff_eq, decide_eq_true_eq] at h
  rcases h with ⟨x, hx, he⟩ | ⟨h1, h2⟩
  · subst he
    fin_cases hx <;> simp [Char.toNat]
  · have g1 := char_le_nat h1
    have g2 := char_le_nat h2
    have e1 : (' ' : Char).toNat = 8192 := by decide
    have e2 : (' ' : Char).toNat = 8202 := by decide
    rw [e1] at g1; rw [e2] at g2
    tauto

/-- Whitespace characters are not digits. -/
theorem pyWs_not_digit {c : Char} (h : pyWsChar c = true) : c.isDigit = false := by
  cases hd : c.isDigit with
  | false => rfl
  | true =>
      have hb := char_isDigit_bounds hd
      have hw := pyWs_toNat h
      omega

/-- Whitespace characters are not letters. -/
theorem pyWs_not_alpha {c : Char} (h : pyWsChar c = true) : c.isAlpha = false := by
  cases hd : c.isAlpha with
  | false => rfl
  | true =>
      have hb := char_isAlpha_bounds hd
      have hw := pyWs_toNat h
      rcases hb with ⟨a, b⟩ | ⟨a, b⟩ <;> omega

/-- A whitespace character differs from any character whose code point avoids
the whitespace code points. -/
theorem pyWs_ne {c d : Char} (h : pyWsChar c = true)
    (hd : d.toNat ≠ 32 ∧ d.toNat ≠ 9 ∧ d.toNat ≠ 10 ∧ d.toNat ≠ 13 ∧ d.toNat ≠ 11 ∧
      d.toNat ≠ 12 ∧ d.toNat ≠ 28 ∧ d.toNat ≠ 29 ∧ d.toNat ≠ 30 ∧ d.toNat ≠ 31 ∧
      d.toNat ≠ 133 ∧ d.toNat ≠ 160 ∧ d.toNat ≠ 5760 ∧ d.toNat ≠ 8232 ∧
      d.toNat ≠ 8233 ∧ d.toNat ≠ 8239 ∧ d.toNat ≠ 8287 ∧ d.toNat ≠ 12288 ∧
      (d.toNat < 8192 ∨ 8202 < d.toNat)) : c ≠ d := by
  intro he
  subst he
  have hw := pyWs_toNat h
  omega

/-- Digits are not letters. -/
theorem digit_not_alpha {c : Char} (h : c.isDigit = true) : c.isAlpha = false := by
  cases hd : c.isAlpha with
  | false => rfl
  | true =>
      have hb := char_isAlpha_bounds hd
      have hc := char_isDigit_bounds h
      rcases hb with ⟨a, b⟩ | ⟨a, b⟩ <;> omega

/-- A digit differs from any character whose code point is not a digit code
point. -/
theorem digit_ne {c d : Char} (h : c.isDigit = true)
    (hd : d.toNat < 48 ∨ 57 < d.toNat) : c ≠ d := by
  intro he
  subst he
  have hb := char_isDigit_bounds h
  omega

/-- A claim-C2 character is a digit, one of the seven operator or two
parenthesis symbols, or whitespace. -/
theorem c2Char_cases {c : Char} (h : c2Char c = true) :
    c.isDigit = true ∨ c = '+' ∨ c = '-' ∨ c = '*' ∨ c = '/' ∨ c = '%' ∨
    c = '(' ∨ c = ')' ∨ pyWsChar c = true := by
  simp only [c2Char, Bool.or_eq_true, decide_eq_true_eq] at h
  tauto

/-- Two characters from the claim-C2 class and its complement differ. -/
theorem c2_ne {c d : Char} (h : c2Char c = true) (hd : c2Char d = false) : c ≠ d := by
  intro he
  rw [he, hd] at h
  cases h

/-- On the claim-C2 class the numeric-literal continuation characters are
exactly the digits (the class has no underscore). -/
theorem c2_numChar {c : Char} (h : c2Char c = true) : numChar c = c.isDigit := by
  by_cases hc : c = '_'
  · subst hc
    exact absurd h (by decide)
  · simp [numChar, hc]

/-- Claim-C2 characters are not letters. -/
theorem c2_not_alpha {c : Char} (h : c2Char c = true) : c.isAlpha = false := by
  rcases c2Char_cases h with hd | hc | hc | hc | hc | hc | hc | hc | hw
  · exact digit_not_alpha hd
  · subst hc; decide
  · subst hc; decide
  · subst hc; decide
  · subst hc; decide
  · subst hc; decide
  · subst hc; decide
  · subst hc; decide
  · exact pyWs_not_alpha hw

/-- `takeWhile` and `dropWhile` only consult the predicate on the list's own
elements. -/
theorem takeWhile_congr_on {p q : Char → Bool} : ∀ l : List Char,
    (∀ c ∈ l, p c = q c) →
    l.takeWhile p = l.takeWhile q ∧ l.dropWhile p = l.dropWhile q := by
  intro l
  induction l with
  | nil => intro _; exact ⟨rfl, rfl⟩
  | cons c t ih =>
      intro h
      have hc := h c (by simp)
      obtain ⟨h1, h2⟩ := ih (fun x hx => h x (by simp [hx]))
      rw [List.takeWhile_cons, List.takeWhile_cons, List.dropWhile_cons,
        List.dropWhile_cons, hc]
      cases hq : q c
      · simp [hq]
      · simp [hq, h1, h2]

/-- The head of a `dropWhile` residue fails the predicate. -/
theorem head_dropWhile_false {p : Char → Bool} : ∀ (l : List Char) (c : Char),
    (l.dropWhile p).head? = some c → p c = false := by
  intro l
  induction l with
  | nil => intro c h; cases h
  | cons x t ih =>
      intro c h
      rw [List.dropWhile_cons] at h
      by_cases hx : p x = true
      · rw [if_pos hx] at h
        exact ih c h
      · rw [if_neg hx] at h
        injection h with h1
        rw [← h1]
        exact Bool.eq_false_iff.mpr hx

/-- A list's optional head is a member. -/
theorem head?_mem {l : List Char} {c : Char} (h : l.head? = some c) : c ∈ l := by
  cases l with
  | nil => cases h
  | cons x t =>
      simp only [List.head?] at h
      injection h with h1
      rw [← h1]
      exact List.mem_cons_self x t

/-- Filtering out underscores from an all-digit list changes nothing. -/
theorem filter_digits_id : ∀ l : List Char, (∀ c ∈ l, c.isDigit = true) →
    l.filter (fun c => c ≠ '_') = l := by
  intro l
  induction l with
  | nil => intro _; rfl
  | cons c t ih =>
      intro h
      have hne : c ≠ '_' :=
        digit_ne (h c (by simp)) (by decide)
      rw [List.filter_cons, if_pos (decide_eq_true hne), ih (fun x hx => h x (by simp [hx]))]

/-- Unfolding equation for `digitGroupOk` past a non-underscore second
character. -/
theorem digitGroupOk_cons₂ {isD : Char → Bool} {c d : Char} {rest : List Char}
    (hd : d ≠ '_') :
    digitGroupOk isD (c :: d :: rest) = (isD c && digitGroupOk isD (d :: rest)) := by
  rw [digitGroupOk.eq_def]
  split
  · next heq => simp at heq
  · next c2 heq =>
      injection heq with h1 h2
      simp at h2
  · next c2 rest2 heq =>
      injection heq with h1 h2
      injection h2 with h3 h4
      exact absurd h3 hd
  · next c2 rest2 heq =>
      injection heq with h1 h2
      subst h1
      subst h2
      rfl

/-- A nonempty all-digit run is a well-formed digit group. -/
theorem digitGroupOk_digits : ∀ l : List Char, l ≠ [] → (∀ c ∈ l, c.isDigit = true) →
    digitGroupOk Char.isDigit l = true := by
  intro l
  induction l with
  | nil => intro h _; exact absurd rfl h
  | cons c t ih =>
      intro _ hall
      cases t with
      | nil => exact hall c (by simp)
      | cons d rest =>
          have hd9 : d.isDigit = true := hall d (by simp)
          have hdu : d ≠ '_' := by
            intro he
            rw [he] at hd9
            exact absurd hd9 (by decide)
          rw [digitGroupOk_cons₂ hdu, hall c (by simp),
            ih (by simp) (fun x hx => hall x (by simp [hx]))]
          rfl

/-- On a digit-headed input drawn from the claim-C2 character class,
`lexNumber` (when it succeeds) emits exactly the maximal digit run as a
decimal integer constant. -/
theorem lexNumber_class {c0 : Char} {cs' : List Char} {k : PyConst} {rest : List Char}
    (hcl : ∀ c ∈ c0 :: cs', c2Char c = true) (hd : c0.isDigit = true)
    (h : lexNumber (c0 :: cs') = .ok (k, rest)) :
    k = .intC (Int.ofNat (digitsToNatBase 10 ((c0 :: cs').takeWhile Char.isDigit))) ∧
    rest = (c0 :: cs').dropWhile Char.isDigit := by
  have hlex : lexNumber (c0 :: cs') = lexDecimal (c0 :: cs') := by
    rw [lexNumber.eq_def]
    split
    · next c2 rest2 heq =>
        injection heq with h1 h2
        have hc2 : c2Char c2 = true := hcl c2 (by rw [h2]; simp)
        have n1 : c2 ≠ 'x' := c2_ne hc2 (by decide)
        have n2 : c2 ≠ 'X' := c2_ne hc2 (by decide)
        have n3 : c2 ≠ 'o' := c2_ne hc2 (by decide)
        have n4 : c2 ≠ 'O' := c2_ne hc2 (by decide)
        have n5 : c2 ≠ 'b' := c2_ne hc2 (by decide)
        have n6 : c2 ≠ 'B' := c2_ne hc2 (by decide)
        simp [n1, n2, n3, n4, n5, n6]
    · rfl
  rw [hlex] at h
  obtain ⟨hT, hD⟩ :=
    takeWhile_congr_on (p := numChar) (q := Char.isDigit) (c0 :: cs')
      (fun c hc => c2_numChar (hcl c hc))
  simp only [lexDecimal, hT, hD] at h
  have hipcons : (c0 :: cs').takeWhile Char.isDigit = c0 :: cs'.takeWhile Char.isDigit := by
    rw [List.takeWhile_cons, if_pos hd]
  have hipdig : ∀ c ∈ (c0 :: cs').takeWhile Char.isDigit, c.isDigit = true :=
    fun c hc => List.mem_takeWhile_imp hc
  have hfin : ∀ r2 : List Char,
      finishNumber ((c0 :: cs').takeWhile Char.isDigit) [] [] false false false r2 =
        .ok (k, rest) →
      juxtaIdent r2 = false →
      k = .intC (Int.ofNat (digitsToNatBase 10 ((c0 :: cs').takeWhile Char.isDigit))) ∧
        rest = r2 := by
    intro r2 hfn hjux
    simp only [finishNumber] at hfn
    rw [hjux] at hfn
    rw [hipcons] at hfn
    simp only [List.isEmpty_cons, List.isEmpty_nil, Bool.false_and, Bool.and_false,
      Bool.false_eq_true, if_false, Bool.not_false, Bool.true_and, Bool.false_or,
      Bool.and_true] at hfn
    rw [← hipcons] at hfn
    rw [digitGroupOk_digits _ (by rw [hipcons]; simp) hipdig] at hfn
    simp only [Bool.not_true, Bool.false_eq_true, if_false, if_true] at hfn
    rw [filter_digits_id _ hipdig] at hfn
    by_cases hlz : leadingZeroBad ((c0 :: cs').takeWhile Char.isDigit) = true
    · rw [if_pos hlz] at hfn
      cases hfn
    · rw [if_neg hlz] at hfn
      injection hfn with h1
      injection h1 with h2 h3
      exact ⟨h2.symm, h3.symm⟩
  have hclR : ∀ c ∈ (c0 :: cs').dropWhile Char.isDigit, c2Char c = true := by
    intro c hc
    exact hcl c ((List.dropWhile_sublist _).subset hc)
  cases hR : (c0 :: cs').dropWhile Char.isDigit with
  | nil =>
      rw [hR] at h
      simp only [lexExpPart] at h
      exact hfin [] h rfl
  | cons r0 rr =>
      have hr0 : c2Char r0 = true := hclR r0 (by rw [hR]; simp)
      have hr0nd : r0.isDigit = false := by
        refine head_dropWhile_false (c0 :: cs') r0 ?_
        rw [hR]; rfl
      have hjux : juxtaIdent (r0 :: rr) = false := by
        have ha : r0.isAlpha = false := c2_not_alpha hr0
        have hu : r0 ≠ '_' := c2_ne hr0 (by decide)
        simp [juxtaIdent, ha, hu]
      have hdot : r0 ≠ '.' := c2_ne hr0 (by decide)
      rw [hR] at h
      split at h
      · next r heq =>
          injection heq with hh1 hh2
          exact absurd hh1 hdot
      · have he1 : r0 ≠ 'e' := c2_ne hr0 (by decide)
        have he2 : r0 ≠ 'E' := c2_ne hr0 (by decide)
        simp only [lexExpPart] at h
        rw [if_neg (by simp [he1, he2])] at h
        exact hfin (r0 :: rr) h hjux

/-- A character that is neither a digit nor a point cannot start a numeric
literal. -/
theorem numStartFalse (c : Char) (hd : c.isDigit = false) (hdot : c ≠ '.')
    (cs' : List Char) : (c.isDigit || (c = '.' && headIsDigit cs')) = false := by
  rw [hd, decide_eq_false hdot]
  rfl

/-- On inputs drawn from the claim-C2 character class, a successful run of
the modelled CPython lexer is also a derivation of the specification
tokenizer relation, and every token it produces is an arithmetic token. -/
theorem lexLoop_c2 : ∀ (n : ℕ) (cs : List Char) (toks : List Tok),
    (∀ c ∈ cs, c2Char c = true) → lexLoop n cs = .ok toks →
    STokens cs toks ∧ toks.all arithTok = true := by
  intro n
  induction n with
  | zero => intro cs toks _ h; simp [lexLoop] at h
  | succ n ih =>
      intro cs toks hcl h
      cases cs with
      | nil =>
          simp only [lexLoop] at h
          injection h with h1
          subst h1
          exact ⟨STokens.nil, rfl⟩
      | cons c0 cs' =>
          have hcl0 : c2Char c0 = true := hcl c0 (by simp)
          have hcl' : ∀ c ∈ cs', c2Char c = true := fun c hc => hcl c (by simp [hc])
          have step : ∀ (t : Tok) (tail : List Char),
              (∀ c ∈ tail, c2Char c = true) →
              lexCons t (lexLoop n tail) = .ok toks →
              ∃ ts', toks = t :: ts' ∧ STokens tail ts' ∧ ts'.all arithTok = true := by
            intro t tail hclt hlc
            cases hrest : lexLoop n tail with
            | error e => rw [hrest] at hlc; simp [lexCons] at hlc
            | ok ts' =>
                rw [hrest] at hlc
                simp only [lexCons, Except.ok.injEq] at hlc
                obtain ⟨hs, ha⟩ := ih tail ts' hclt hrest
                exact ⟨ts', hlc.symm, hs, ha⟩
          simp only [lexLoop] at h
          by_cases h1 : pyWsChar c0 = true
          · rw [if_pos h1] at h
            obtain ⟨hs, ha⟩ := ih cs' toks hcl' h
            exact ⟨STokens.ws h1 hs, ha⟩
          · rw [if_neg h1] at h
            rcases c2Char_cases hcl0 with hd | hc | hc | hc | hc | hc | hc | hc | hw
            · -- digit: a numeric literal
              rw [if_neg (digit_ne hd (by decide))] at h
              rw [if_pos (by rw [hd]; rfl)] at h
              cases hnum : lexNumber (c0 :: cs') with
              | error e => rw [hnum] at h; cases h
              | ok p =>
                  obtain ⟨k, rest⟩ := p
                  simp only [hnum] at h
                  obtain ⟨hk, hrq⟩ := lexNumber_class hcl hd hnum
                  subst hk
                  obtain ⟨ts', htoks, hs, ha⟩ := step _ rest
                    (by
                      intro c hc
                      rw [hrq] at hc
                      exact hcl c ((List.dropWhile_sublist _).subset hc)) h
                  subst htoks
                  constructor
                  · set ds := (c0 :: cs').takeWhile Char.isDigit with hds
                    have hsp : c0 :: cs' = ds ++ rest := by
                      rw [hds, hrq]
                      exact (List.takeWhile_append_dropWhile Char.isDigit (c0 :: cs')).symm
                    rw [hsp]
                    refine STokens.number ?_ ?_ ?_ ?_ hs
                    · rw [hds, List.takeWhile_cons, if_pos hd]
                      simp
                    · intro c hc
                      rw [hds] at hc
                      exact List.mem_takeWhile_imp hc
                    · intro c hc
                      rw [hrq] at hc
                      exact head_dropWhile_false _ c hc
                    · intro c hc
                      have hcm : c ∈ rest := head?_mem hc
                      have : c2Char c = true := by
                        rw [hrq] at hcm
                        exact hcl c ((List.dropWhile_sublist _).subset hcm)
                      exact c2_ne this (by decide)
                  · simp [List.all_cons, ha, arithTok]
            · -- '+'
              subst hc
              rw [if_neg (by decide)] at h
              rw [if_neg (by simp [numStartFalse '+' (by decide) (by decide) cs'])] at h
              rw [if_neg (by decide)] at h
              rw [if_neg (by decide)] at h
              rw [if_neg (by decide)] at h
              rw [if_neg (by decide)] at h
              rw [if_neg (by decide)] at h
              rw [if_neg (by decide)] at h
              rw [if_pos rfl] at h
              obtain ⟨ts', htoks, hs, ha⟩ := step (.op .add) cs' hcl' h
              subst htoks
              exact ⟨STokens.plus hs, by simp [List.all_cons, ha, arithTok, allowedBin]⟩
            · -- '-'
              subst hc
              rw [if_neg (by decide)] at h
              rw [if_neg (by simp [numStartFalse '-' (by decide) (by decide) cs'])] at h
              rw [if_neg (by decide)] at h
              rw [if_neg (by decide)] at h
              rw [if_neg (by decide)] at h
              rw [if_neg (by decide)] at h
              rw [if_neg (by decide)] at h
              rw [if_neg (by decide)] at h
              rw [if_neg (by decide)] at h
              rw [if_pos rfl] at h
              obtain ⟨ts', htoks, hs, ha⟩ := step (.op .sub) cs' hcl' h
              subst htoks
              exact ⟨STokens.minus hs, by simp [List.all_cons, ha, arithTok, allowedBin]⟩
            · -- '*'
              subst hc
              rw [if_neg (by decide)] at h
              rw [if_neg (by simp [numStartFalse '*' (by decide) (by decide) cs'])] at h
              rw [if_neg (by decide)] at h
              rw [if_neg (by decide)] at h
              rw [if_neg (by decide)] at h
              rw [if_neg (by decide)] at h
              rw [if_neg (by decide)] at h
              rw [if_neg (by decide)] at h
              rw [if_neg (by decide)] at h
              rw [if_neg (by decide)] at h
              rw [if_neg (by decide)] at h
              rw [if_neg (by decide)] at h
              rw [if_pos rfl] at h
              split at h
              · next u1 cs2 =>
                  have hcl'' : ∀ c ∈ cs2, c2Char c = true := fun c hc =>
                    hcl' c (by simp [hc])
                  obtain ⟨ts', htoks, hs, ha⟩ := step (.op .pow) cs2 hcl'' h
                  subst htoks
                  exact ⟨STokens.dstar hs, by simp [List.all_cons, ha, arithTok, allowedBin]⟩
              · next hnm =>
                  obtain ⟨ts', htoks, hs, ha⟩ := step (.op .mul) cs' hcl' h
                  subst htoks
                  refine ⟨STokens.star ?_ hs, by simp [List.all_cons, ha, arithTok, allowedBin]⟩
                  intro c hc he
                  subst he
                  cases cs' with
                  | nil => cases hc
                  | cons x t =>
                      simp only [List.head?] at hc
                      injection hc with h2
                      exact hnm t (by rw [h2])
            · -- '/'
              subst hc
              rw [if_neg (by decide)] at h
              rw [if_neg (by simp [numStartFalse '/' (by decide) (by decide) cs'])] at h
              rw [if_neg (by decide)] at h
              rw [if_neg (by decide)] at h
              rw [if_neg (by decide)] at h
              rw [if_neg (by decide)] at h
              rw [if_neg (by decide)] at h
              rw [if_neg (by decide)] at h
              rw [if_neg (by decide)] at h
              rw [if_neg (by decide)] at h
              rw [if_neg (by decide)] at h
              rw [if_neg (by decide)] at h
              rw [if_neg (by decide)] at h
              rw [if_pos rfl] at h
              split at h
              · next u1 cs2 =>
                  have hcl'' : ∀ c ∈ cs2, c2Char c = true := fun c hc =>
                    hcl' c (by simp [hc])
                  obtain ⟨ts', htoks, hs, ha⟩ := step (.op .floorDiv) cs2 hcl'' h
                  subst htoks
                  exact ⟨STokens.dslash hs, by simp [List.all_cons, ha, arithTok, allowedBin]⟩
              · next hnm =>
                  obtain ⟨ts', htoks, hs, ha⟩ := step (.op .div) cs' hcl' h
                  subst htoks
                  refine ⟨STokens.slash ?_ hs, by simp [List.all_cons, ha, arithTok, allowedBin]⟩
                  intro c hc he
                  subst he
                  cases cs' with
                  | nil => cases hc
                  | cons x t =>
                      simp only [List.head?] at hc
                      injection hc with h2
                      exact hnm t (by rw [h2])
            · -- '%'
              subst hc
              rw [if_neg (by decide)] at h
              rw [if_neg (by simp [numStartFalse '%' (by decide) (by decide) cs'])] at h
              rw [if_neg (by decide)] at h
              rw [if_neg (by decide)] at h
              rw [if_neg (by decide)] at h
              rw [if_neg (by decide)] at h
              rw [if_neg (by decide)] at h
              rw [if_neg (by decide)] at h
              rw [if_neg (by decide)] at h
              rw [if_neg (by decide)] at h
              rw [if_pos rfl] at h
              obtain ⟨ts', htoks, hs, ha⟩ := step (.op .mod) cs' hcl' h
              subst htoks
              exact ⟨STokens.percent hs, by simp [List.all_cons, ha, arithTok, allowedBin]⟩
            · -- '('
              subst hc
              rw [if_neg (by decide)] at h
              rw [if_neg (by simp [numStartFalse '(' (by decide) (by decide) cs'])] at h
              rw [if_neg (by decide)] at h
              rw [if_neg (by decide)] at h
              rw [if_pos rfl] at h
              obtain ⟨ts', htoks, hs, ha⟩ := step .lparen cs' hcl' h
              subst htoks
              exact ⟨STokens.lpar hs, by simp [List.all_cons, ha, arithTok]⟩
            · -- ')'
              subst hc
              rw [if_neg (by decide)] at h
              rw [if_neg (by simp [numStartFalse ')' (by decide) (by decide) cs'])] at h
              rw [if_neg (by decide)] at h
              rw [if_neg (by decide)] at h
              rw [if_neg (by decide)] at h
              rw [if_pos rfl] at h
              obtain ⟨ts', htoks, hs, ha⟩ := step .rparen cs' hcl' h
              subst htoks
              exact ⟨STokens.rpar hs, by simp [List.all_cons, ha, arithTok]⟩
            · exact absurd hw h1

/-- Arithmetic-token-ness restricts to any suffix decomposition. -/
theorem tsAll_suffix {ts pre r : List Tok} (he : ts = pre ++ r)
    (h : ts.all arithTok = true) : r.all arithTok = true := by
  subst he
  rw [List.all_append, Bool.and_eq_true] at h
  exact h.2

/-- The additive-level guard holds exactly for `+` and `-`. -/
theorem arithOp_cases {k : BinKind} (h : arithOp k = true) :
    k = BinKind.add ∨ k = BinKind.sub := by
  cases k <;> simp_all [arithOp]

/-- The multiplicative-level guard holds exactly for `* / // %`. -/
theorem termOp_cases {k : BinKind} (h : termOp k = true) :
    k = BinKind.mul ∨ k = BinKind.div ∨ k = BinKind.floorDiv ∨ k = BinKind.mod := by
  cases k <;> simp_all [termOp]

/-- Refinement of the modelled CPython parse-then-evaluate pipeline by the
specification grammar: on token lists made only of arithmetic tokens, every
level of the recursive-descent parser whose tree evaluates successfully is
matched by a derivation of the corresponding spec relation.  The loop
conjuncts also record that the `^`-loop and call-loop cannot fire (the
first needs a `^` token, the second a tree `_eval` rejects), and the two
spine conjuncts extract evaluability of a loop accumulator from
evaluability of its result. -/
theorem parserRefineAll (n : ℕ) :
    (∀ ts a r, ts.all arithTok = true → pXor n ts = .ok (a, r) →
      ∀ v, evalAst a = .ok v → SExpr ts v r) ∧
    (∀ acc ts a r, ts.all arithTok = true → pXorLoop n acc ts = .ok (a, r) →
      a = acc ∧ r = ts) ∧
    (∀ ts a r, ts.all arithTok = true → pArith n ts = .ok (a, r) →
      ∀ v, evalAst a = .ok v → SExpr ts v r) ∧
    (∀ acc ts a r, ts.all arithTok = true → pArithLoop n acc ts = .ok (a, r) →
      ∀ v accV, evalAst a = .ok v → evalAst acc = .ok accV → SExprTail accV ts v r) ∧
    (∀ acc ts a r, pArithLoop n acc ts = .ok (a, r) →
      ∀ v, evalAst a = .ok v → ∃ w, evalAst acc = .ok w) ∧
    (∀ ts a r, ts.all arithTok = true → pTerm n ts = .ok (a, r) →
      ∀ v, evalAst a = .ok v → STerm ts v r) ∧
    (∀ acc ts a r, ts.all arithTok = true → pTermLoop n acc ts = .ok (a, r) →
      ∀ v accV, evalAst a = .ok v → evalAst acc = .ok accV → STermTail accV ts v r) ∧
    (∀ acc ts a r, pTermLoop n acc ts = .ok (a, r) →
      ∀ v, evalAst a = .ok v → ∃ w, evalAst acc = .ok w) ∧
    (∀ ts a r, ts.all arithTok = true → pFactor n ts = .ok (a, r) →
      ∀ v, evalAst a = .ok v → SUnary ts v r) ∧
    (∀ ts a r, ts.all arithTok = true → pPower n ts = .ok (a, r) →
      ∀ v, evalAst a = .ok v → SPower ts v r) ∧
    (∀ ts a r, ts.all arithTok = true → pPrimary n ts = .ok (a, r) →
      ∀ v, evalAst a = .ok v → SAtom ts v r) ∧
    (∀ acc ts a r, pCallLoop n acc ts = .ok (a, r) →
      ∀ v, evalAst a = .ok v → a = acc ∧ r = ts) ∧
    (∀ ts a r, ts.all arithTok = true → pAtom n ts = .ok (a, r) →
      ∀ v, evalAst a = .ok v → SAtom ts v r) := by
  induction n with
  | zero =>
      refine ⟨fun ts a r _ h => ?_, fun acc ts a r _ h => ?_, fun ts a r _ h => ?_,
        fun acc ts a r _ h => ?_, fun acc ts a r h => ?_, fun ts a r _ h => ?_,
        fun acc ts a r _ h => ?_, fun acc ts a r h => ?_, fun ts a r _ h => ?_,
        fun ts a r _ h => ?_, fun ts a r _ h => ?_, fun acc ts a r h => ?_,
        fun ts a r _ h => ?_⟩ <;>
        simp [pXor, pXorLoop, pArith, pArithLoop, pTerm, pTermLoop, pFactor,
          pPower, pPrimary, pCallLoop, pAtom] at h
  | succ n ih =>
      obtain ⟨rXor, lXor, rArith, rArithL, spA, rTerm, rTermL, spT, rFactor,
        rPower, rPrimary, lCall, rAtom⟩ := ih
      have iArithInv := (parserInvAll n).2.2.1
      have iTermInv := (parserInvAll n).2.2.2.2.1
      have iPrimaryInv := (parserInvAll n).2.2.2.2.2.2.2.2.1
      refine ⟨?_, ?_, ?_, ?_, ?_, ?_, ?_, ?_, ?_, ?_, ?_, ?_, ?_⟩
      -- pXor refines SExpr
      · intro ts a r hts h
        simp only [pXor] at h
        cases h1 : pArith n ts with
        | error e => simp [h1] at h
        | ok p =>
            obtain ⟨a0, r0⟩ := p
            simp only [h1] at h
            obtain ⟨pre, hpre, -, -⟩ := iArithInv ts a0 r0 h1
            obtain ⟨rfl, rfl⟩ := lXor a0 r0 a r (tsAll_suffix hpre hts) h
            exact rArith ts _ _ hts h1
      -- the xor loop cannot fire on arithmetic tokens
      · intro acc ts a r hts h
        cases ts with
        | nil =>
            simp only [pXorLoop, Except.ok.injEq, Prod.mk.injEq] at h
            obtain ⟨rfl, rfl⟩ := h
            exact ⟨rfl, rfl⟩
        | cons t rest =>
            cases t with
            | op k =>
                simp only [pXorLoop] at h
                by_cases hk : k = BinKind.bitXor
                · subst hk
                  rw [List.all_cons] at hts
                  simp [arithTok, allowedBin] at hts
                · simp only [if_neg hk, Except.ok.injEq, Prod.mk.injEq] at h
                  obtain ⟨rfl, rfl⟩ := h
                  exact ⟨rfl, rfl⟩
            | num c =>
                simp only [pXorLoop, Except.ok.injEq, Prod.mk.injEq] at h
                obtain ⟨rfl, rfl⟩ := h
                exact ⟨rfl, rfl⟩
            | lparen =>
                simp only [pXorLoop, Except.ok.injEq, Prod.mk.injEq] at h
                obtain ⟨rfl, rfl⟩ := h
                exact ⟨rfl, rfl⟩
            | rparen =>
                simp only [pXorLoop, Except.ok.injEq, Prod.mk.injEq] at h
                obtain ⟨rfl, rfl⟩ := h
                exact ⟨rfl, rfl⟩
            | ident s =>
                simp only [pXorLoop, Except.ok.injEq, Prod.mk.injEq] at h
                obtain ⟨rfl, rfl⟩ := h
                exact ⟨rfl, rfl⟩
            | strTok s =>
                simp only [pXorLoop, Except.ok.injEq, Prod.mk.injEq] at h
                obtain ⟨rfl, rfl⟩ := h
                exact ⟨rfl, rfl⟩
            | comma =>
                simp only [pXorLoop, Except.ok.injEq, Prod.mk.injEq] at h
                obtain ⟨rfl, rfl⟩ := h
                exact ⟨rfl, rfl⟩
            | semi =>
                simp only [pXorLoop, Except.ok.injEq, Prod.mk.injEq] at h
                obtain ⟨rfl, rfl⟩ := h
                exact ⟨rfl, rfl⟩
      -- pArith refines SExpr
      · intro ts a r hts h
        simp only [pArith] at h
        cases h1 : pTerm n ts with
        | error e => simp [h1] at h
        | ok p =>
            obtain ⟨l, r0⟩ := p
            simp only [h1] at h
            intro v hv
            obtain ⟨w, hw⟩ := spA l r0 a r h v hv
            obtain ⟨pre, hpre, -, -⟩ := iTermInv ts l r0 h1
            exact SExpr.mk (rTerm ts l r0 hts h1 w hw)
              (rArithL l r0 a r (tsAll_suffix hpre hts) h v w hv hw)
      -- the additive loop refines SExprTail
      · intro acc ts a r hts h v accV hv hacc
        cases ts with
        | nil =>
            simp only [pArithLoop, Except.ok.injEq, Prod.mk.injEq] at h
            obtain ⟨rfl, rfl⟩ := h
            rw [hacc] at hv
            injection hv with he
            subst he
            exact SExprTail.stop
        | cons t rest =>
            have hstop : (Except.ok (acc, t :: rest) : Except String (PyAst × List Tok)) = .ok (a, r) →
                SExprTail accV (t :: rest) v r := by
              intro h2
              simp only [Except.ok.injEq, Prod.mk.injEq] at h2
              obtain ⟨rfl, rfl⟩ := h2
              rw [hacc] at hv
              injection hv with he
              subst he
              exact SExprTail.stop
            cases t with
            | op k =>
                simp only [pArithLoop] at h
                by_cases hop : arithOp k = true
                · rw [if_pos hop] at h
                  cases h2 : pTerm n rest with
                  | error e => simp [h2] at h
                  | ok p =>
                      obtain ⟨t1, r1⟩ := p
                      simp only [h2] at h
                      obtain ⟨w', hw'⟩ := spA _ r1 a r h v hv
                      obtain ⟨-, lv, rv, hl, hr2, happ⟩ := evalAst_binOp_ok hw'
                      rw [hacc] at hl
                      injection hl with he
                      subst he
                      rw [List.all_cons, Bool.and_eq_true] at hts
                      obtain ⟨-, htsrest⟩ := hts
                      obtain ⟨pre, hpre, -, -⟩ := iTermInv rest t1 r1 h2
                      exact SExprTail.step (arithOp_cases hop)
                        (rTerm rest t1 r1 htsrest h2 rv hr2) happ
                        (rArithL _ r1 a r (tsAll_suffix hpre htsrest) h v w' hv hw')
                · rw [if_neg hop] at h
                  exact hstop h
            | num c => exact hstop (by simpa [pArithLoop] using h)
            | lparen => exact hstop (by simpa [pArithLoop] using h)
            | rparen => exact hstop (by simpa [pArithLoop] using h)
            | ident s => exact hstop (by simpa [pArithLoop] using h)
            | strTok s => exact hstop (by simpa [pArithLoop] using h)
            | comma => exact hstop (by simpa [pArithLoop] using h)
            | semi => exact hstop (by simpa [pArithLoop] using h)
      -- additive-loop spine
      · intro acc ts a r h v hv
        have hstop : (Except.ok (acc, ts) : Except String (PyAst × List Tok)) = .ok (a, r) →
            ∃ w, evalAst acc = .ok w := by
          intro h2
          simp only [Except.ok.injEq, Prod.mk.injEq] at h2
          obtain ⟨rfl, -⟩ := h2
          exact ⟨v, hv⟩
        cases ts with
        | nil => exact hstop (by simpa [pArithLoop] using h)
        | cons t rest =>
            cases t with
            | op k =>
                simp only [pArithLoop] at h
                by_cases hop : arithOp k = true
                · rw [if_pos hop] at h
                  cases h2 : pTerm n rest with
                  | error e => simp [h2] at h
                  | ok p =>
                      obtain ⟨t1, r1⟩ := p
                      simp only [h2] at h
                      obtain ⟨w', hw'⟩ := spA _ r1 a r h v hv
                      obtain ⟨-, lv, rv, hl, -, -⟩ := evalAst_binOp_ok hw'
                      exact ⟨lv, hl⟩
                · rw [if_neg hop] at h
                  exact hstop h
            | num c => exact hstop (by simpa [pArithLoop] using h)
            | lparen => exact hstop (by simpa [pArithLoop] using h)
            | rparen => exact hstop (by simpa [pArithLoop] using h)
            | ident s => exact hstop (by simpa [pArithLoop] using h)
            | strTok s => exact hstop (by simpa [pArithLoop] using h)
            | comma => exact hstop (by simpa [pArithLoop] using h)
            | semi => exact hstop (by simpa [pArithLoop] using h)
      -- pTerm refines STerm
      · intro ts a r hts h
        simp only [pTerm] at h
        cases h1 : pFactor n ts with
        | error e => simp [h1] at h
        | ok p =>
            obtain ⟨l, r0⟩ := p
            simp only [h1] at h
            intro v hv
            obtain ⟨w, hw⟩ := spT l r0 a r h v hv
            obtain ⟨pre, hpre, -, -⟩ := (parserInvAll n).2.2.2.2.2.2.1 ts l r0 h1
            exact STerm.mk (rFactor ts l r0 hts h1 w hw)
              (rTermL l r0 a r (tsAll_suffix hpre hts) h v w hv hw)
      -- the multiplicative loop refines STermTail
      · intro acc ts a r hts h v accV hv hacc
        cases ts with
        | nil =>
            simp only [pTermLoop, Except.ok.injEq, Prod.mk.injEq] at h
            obtain ⟨rfl, rfl⟩ := h
            rw [hacc] at hv
            injection hv with he
            subst he
            exact STermTail.stop
        | cons t rest =>
            have hstop : (Except.ok (acc, t :: rest) : Except String (PyAst × List Tok)) = .ok (a, r) →
                STermTail accV (t :: rest) v r := by
              intro h2
              simp only [Except.ok.injEq, Prod.mk.injEq] at h2
              obtain ⟨rfl, rfl⟩ := h2
              rw [hacc] at hv
              injection hv with he
              subst he
              exact STermTail.stop
            cases t with
            | op k =>
                simp only [pTermLoop] at h
                by_cases hop : termOp k = true
                · rw [if_pos hop] at h
                  cases h2 : pFactor n rest with
                  | error e => simp [h2] at h
                  | ok p =>
                      obtain ⟨t1, r1⟩ := p
                      simp only [h2] at h
                      obtain ⟨w', hw'⟩ := spT _ r1 a r h v hv
                      obtain ⟨-, lv, rv, hl, hr2, happ⟩ := evalAst_binOp_ok hw'
                      rw [hacc] at hl
                      injection hl with he
                      subst he
                      rw [List.all_cons, Bool.and_eq_true] at hts
                      obtain ⟨-, htsrest⟩ := hts
                      obtain ⟨pre, hpre, -, -⟩ :=
                        (parserInvAll n).2.2.2.2.2.2.1 rest t1 r1 h2
                      exact STermTail.step (termOp_cases hop)
                        (rFactor rest t1 r1 htsrest h2 rv hr2) happ
                        (rTermL _ r1 a r (tsAll_suffix hpre htsrest) h v w' hv hw')
                · rw [if_neg hop] at h
                  exact hstop h
            | num c => exact hstop (by simpa [pTermLoop] using h)
            | lparen => exact hstop (by simpa [pTermLoop] using h)
            | rparen => exact hstop (by simpa [pTermLoop] using h)
            | ident s => exact hstop (by simpa [pTermLoop] using h)
            | strTok s => exact hstop (by simpa [pTermLoop] using h)
            | comma => exact hstop (by simpa [pTermLoop] using h)
            | semi => exact hstop (by simpa [pTermLoop] using h)
      -- multiplicative-loop spine
      · intro acc ts a r h v hv
        have hstop : (Except.ok (acc, ts) : Except String (PyAst × List Tok)) = .ok (a, r) →
            ∃ w, evalAst acc = .ok w := by
          intro h2
          simp only [Except.ok.injEq, Prod.mk.injEq] at h2
          obtain ⟨rfl, -⟩ := h2
          exact ⟨v, hv⟩
        cases ts with
        | nil => exact hstop (by simpa [pTermLoop] using h)
        | cons t rest =>
            cases t with
            | op k =>
                simp only [pTermLoop] at h
                by_cases hop : termOp k = true
                · rw [if_pos hop] at h
                  cases h2 : pFactor n rest with
                  | error e => simp [h2] at h
                  | ok p =>
                      obtain ⟨t1, r1⟩ := p
                      simp only [h2] at h
                      obtain ⟨w', hw'⟩ := spT _ r1 a r h v hv
                      obtain ⟨-, lv, rv, hl, -, -⟩ := evalAst_binOp_ok hw'
                      exact ⟨lv, hl⟩
                · rw [if_neg hop] at h
                  exact hstop h
            | num c => exact hstop (by simpa [pTermLoop] using h)
            | lparen => exact hstop (by simpa [pTermLoop] using h)
            | rparen => exact hstop (by simpa [pTermLoop] using h)
            | ident s => exact hstop (by simpa [pTermLoop] using h)
            | strTok s => exact hstop (by simpa [pTermLoop] using h)
            | comma => exact hstop (by simpa [pTermLoop] using h)
            | semi => exact hstop (by simpa [pTermLoop] using h)
      -- pFactor refines SUnary
      · intro ts a r hts h
        cases ts with
        | nil =>
            simp only [pFactor] at h
            intro v hv
            exact SUnary.base (rPower [] a r hts h v hv)
        | cons t rest =>
            cases t with
            | op k =>
                simp only [pFactor] at h
                by_cases h1 : k = BinKind.add
                · subst h1
                  rw [if_pos rfl] at h
                  cases h2 : pFactor n rest with
                  | error e => simp [h2] at h
                  | ok p =>
                      obtain ⟨e, r2⟩ := p
                      simp only [h2, Except.ok.injEq, Prod.mk.injEq] at h
                      obtain ⟨rfl, rfl⟩ := h
                      intro v hv
                      obtain ⟨ev, hev, happ⟩ := evalAst_unaryOp_ok hv
                      rw [List.all_cons, Bool.and_eq_true] at hts
                      exact SUnary.pos (rFactor rest e r2 hts.2 h2 ev hev) happ
                · by_cases h1' : k = BinKind.sub
                  · subst h1'
                    rw [if_neg h1, if_pos rfl] at h
                    cases h2 : pFactor n rest with
                    | error e => simp [h2] at h
                    | ok p =>
                        obtain ⟨e, r2⟩ := p
                        simp only [h2, Except.ok.injEq, Prod.mk.injEq] at h
                        obtain ⟨rfl, rfl⟩ := h
                        intro v hv
                        obtain ⟨ev, hev, happ⟩ := evalAst_unaryOp_ok hv
                        rw [List.all_cons, Bool.and_eq_true] at hts
                        exact SUnary.neg (rFactor rest e r2 hts.2 h2 ev hev) happ
                  · rw [if_neg h1, if_neg h1'] at h
                    intro v hv
                    exact SUnary.base (rPower _ a r hts h v hv)
            | num c =>
                simp only [pFactor] at h
                intro v hv
                exact SUnary.base (rPower _ a r hts h v hv)
            | lparen =>
                simp only [pFactor] at h
                intro v hv
                exact SUnary.base (rPower _ a r hts h v hv)
            | rparen =>
                simp only [pFactor] at h
                intro v hv
                exact SUnary.base (rPower _ a r hts h v hv)
            | ident s =>
                simp only [pFactor] at h
                intro v hv
                exact SUnary.base (rPower _ a r hts h v hv)
            | strTok s =>
                simp only [pFactor] at h
                intro v hv
                exact SUnary.base (rPower _ a r hts h v hv)
            | comma =>
                simp only [pFactor] at h
                intro v hv
                exact SUnary.base (rPower _ a r hts h v hv)
            | semi =>
                simp only [pFactor] at h
                intro v hv
                exact SUnary.base (rPower _ a r hts h v hv)
      -- pPower refines SPower
      · intro ts a r hts h
        simp only [pPower] at h
        cases h1 : pPrimary n ts with
        | error e => simp [h1] at h
        | ok p =>
            obtain ⟨b, r0⟩ := p
            simp only [h1] at h
            obtain ⟨pre, hpre, -, -⟩ := iPrimaryInv ts b r0 h1
            have hts0 := tsAll_suffix hpre hts
            split at h
            · next k rest =>
                by_cases hk : k = BinKind.pow
                · subst hk
                  rw [if_pos rfl] at h
                  cases h2 : pFactor n rest with
                  | error e => simp [h2] at h
                  | ok p2 =>
                      obtain ⟨e, r2⟩ := p2
                      simp only [h2, Except.ok.injEq, Prod.mk.injEq] at h
                      obtain ⟨rfl, rfl⟩ := h
                      intro v hv
                      obtain ⟨-, bv, ev, hb, he, happ⟩ := evalAst_binOp_ok hv
                      rw [List.all_cons, Bool.and_eq_true] at hts0
                      exact SPower.withPow (rPrimary ts b _ hts h1 bv hb)
                        (rFactor rest e r2 hts0.2 h2 ev he) happ
                · rw [if_neg hk] at h
                  simp only [Except.ok.injEq, Prod.mk.injEq] at h
                  obtain ⟨rfl, rfl⟩ := h
                  intro v hv
                  exact SPower.noPow (rPrimary ts _ _ hts h1 v hv)
            · simp only [Except.ok.injEq, Prod.mk.injEq] at h
              obtain ⟨rfl, rfl⟩ := h
              intro v hv
              exact SPower.noPow (rPrimary ts _ _ hts h1 v hv)
      -- pPrimary refines SAtom
      · intro ts a r hts h
        simp only [pPrimary] at h
        cases h1 : pAtom n ts with
        | error e => simp [h1] at h
        | ok p =>
            obtain ⟨a0, r0⟩ := p
            simp only [h1] at h
            intro v hv
            obtain ⟨rfl, rfl⟩ := lCall a0 r0 a r h v hv
            exact rAtom ts _ _ hts h1 v hv
      -- the call loop cannot fire on a tree the evaluator accepts
      · intro acc ts a r h v hv
        have hstop : (Except.ok (acc, ts) : Except String (PyAst × List Tok)) = .ok (a, r) →
            a = acc ∧ r = ts := by
          intro h2
          simp only [Except.ok.injEq, Prod.mk.injEq] at h2
          obtain ⟨rfl, rfl⟩ := h2
          exact ⟨rfl, rfl⟩
        cases ts with
        | nil => exact hstop (by simpa [pCallLoop] using h)
        | cons t rest =>
            cases t with
            | lparen =>
                simp only [pCallLoop] at h
                cases rest with
                | nil =>
                    cases h2 : pArgs n [] with
                    | error e => simp [h2] at h
                    | ok p2 =>
                        obtain ⟨k2, rest2⟩ := p2
                        simp only [h2] at h
                        obtain ⟨rfl, -⟩ := lCall _ rest2 a r h v hv
                        simp [evalAst] at hv
                | cons t2 rest2 =>
                    cases t2 with
                    | rparen =>
                        obtain ⟨rfl, -⟩ := lCall _ rest2 a r h v hv
                        simp [evalAst] at hv
                    | num c =>
                        cases h2 : pArgs n (Tok.num c :: rest2) with
                        | error e => simp [h2] at h
                        | ok p2 =>
                            obtain ⟨k2, rest3⟩ := p2
                            simp only [h2] at h
                            obtain ⟨rfl, -⟩ := lCall _ rest3 a r h v hv
                            simp [evalAst] at hv
                    | op k =>
                        cases h2 : pArgs n (Tok.op k :: rest2) with
                        | error e => simp [h2] at h
                        | ok p2 =>
                            obtain ⟨k2, rest3⟩ := p2
                            simp only [h2] at h
                            obtain ⟨rfl, -⟩ := lCall _ rest3 a r h v hv
                            simp [evalAst] at hv
                    | lparen =>
                        cases h2 : pArgs n (Tok.lparen :: rest2) with
                        | error e => simp [h2] at h
                        | ok p2 =>
                            obtain ⟨k2, rest3⟩ := p2
                            simp only [h2] at h
                            obtain ⟨rfl, -⟩ := lCall _ rest3 a r h v hv
                            simp [evalAst] at hv
                    | ident s =>
                        cases h2 : pArgs n (Tok.ident s :: rest2) with
                        | error e => simp [h2] at h
                        | ok p2 =>
                            obtain ⟨k2, rest3⟩ := p2
                            simp only [h2] at h
                            obtain ⟨rfl, -⟩ := lCall _ rest3 a r h v hv
                            simp [evalAst] at hv
                    | strTok s =>
                        cases h2 : pArgs n (Tok.strTok s :: rest2) with
                        | error e => simp [h2] at h
                        | ok p2 =>
                            obtain ⟨k2, rest3⟩ := p2
                            simp only [h2] at h
                            obtain ⟨rfl, -⟩ := lCall _ rest3 a r h v hv
                            simp [evalAst] at hv
                    | comma =>
                        cases h2 : pArgs n (Tok.comma :: rest2) with
                        | error e => simp [h2] at h
                        | ok p2 =>
                            obtain ⟨k2, rest3⟩ := p2
                            simp only [h2] at h
                            obtain ⟨rfl, -⟩ := lCall _ rest3 a r h v hv
                            simp [evalAst] at hv
                    | semi =>
                        cases h2 : pArgs n (Tok.semi :: rest2) with
                        | error e => simp [h2] at h
                        | ok p2 =>
                            obtain ⟨k2, rest3⟩ := p2
                            simp only [h2] at h
                            obtain ⟨rfl, -⟩ := lCall _ rest3 a r h v hv
                            simp [evalAst] at hv
            | num c => exact hstop (by simpa [pCallLoop] using h)
            | op k => exact hstop (by simpa [pCallLoop] using h)
            | rparen => exact hstop (by simpa [pCallLoop] using h)
            | ident s => exact hstop (by simpa [pCallLoop] using h)
            | strTok s => exact hstop (by simpa [pCallLoop] using h)
            | comma => exact hstop (by simpa [pCallLoop] using h)
            | semi => exact hstop (by simpa [pCallLoop] using h)
      -- pAtom refines SAtom
      · intro ts a r hts h
        cases ts with
        | nil => simp [pAtom] at h
        | cons t rest =>
            cases t with
            | num c =>
                simp only [pAtom, Except.ok.injEq, Prod.mk.injEq] at h
                obtain ⟨rfl, rfl⟩ := h
                rw [List.all_cons, Bool.and_eq_true] at hts
                obtain ⟨h1, -⟩ := hts
                intro v hv
                cases c with
                | intC z =>
                    simp only [evalAst, Except.ok.injEq] at hv
                    subst hv
                    exact SAtom.numInt
                | floatC q => simp [arithTok] at h1
                | strC s => simp [arithTok] at h1
                | boolC b => simp [arithTok] at h1
                | noneC => simp [arithTok] at h1
            | ident s =>
                rw [List.all_cons, Bool.and_eq_true] at hts
                obtain ⟨h1, -⟩ := hts
                simp [arithTok] at h1
            | strTok s =>
                rw [List.all_cons, Bool.and_eq_true] at hts
                obtain ⟨h1, -⟩ := hts
                simp [arithTok] at h1
            | lparen =>
                simp only [pAtom] at h
                cases h1 : pXor n rest with
                | error e => simp [h1] at h
                | ok p =>
                    obtain ⟨e, r1⟩ := p
                    simp only [h1] at h
                    rw [List.all_cons, Bool.and_eq_true] at hts
                    obtain ⟨-, htsrest⟩ := hts
                    cases r1 with
                    | nil => simp at h
                    | cons t2 r2 =>
                        cases t2 with
                        | rparen =>
                            simp only [Except.ok.injEq, Prod.mk.injEq] at h
                            obtain ⟨rfl, rfl⟩ := h
                            intro v hv
                            exact SAtom.paren (rXor rest _ _ htsrest h1 v hv)
                        | num c => simp at h
                        | op k => simp at h
                        | lparen => simp at h
                        | ident s => simp at h
                        | strTok s => simp at h
                        | comma => simp at h
                        | semi => simp at h
            | op k => simp [pAtom] at h
            | rparen => simp [pAtom] at h
            | comma => simp [pAtom] at h
            | semi => simp [pAtom] at h

/-- Stripping only removes characters. -/
theorem pyStrip_subset {cs : List Char} : ∀ c ∈ pyStrip cs, c ∈ cs := by
  intro c hc
  have h1 : c ∈ (cs.dropWhile pyWsChar).reverse.dropWhile pyWsChar :=
    List.mem_reverse.mp hc
  have h2 : c ∈ (cs.dropWhile pyWsChar).reverse := (List.dropWhile_sublist _).subset h1
  have h3 : c ∈ cs.dropWhile pyWsChar := List.mem_reverse.mp h2
  exact (List.dropWhile_sublist _).subset h3

/-- A successful `pyParse` is a full-consumption run of the top parser
level. -/
theorem pyParse_ok_elim {ts : List Tok} {a : PyAst} (h : pyParse ts = .ok a) :
    pXor (10 * ts.length + 10) ts = .ok (a, []) := by
  unfold pyParse at h
  cases hx : pXor (10 * ts.length + 10) ts with
  | error e => rw [hx] at h; cases h
  | ok p =>
      obtain ⟨a0, r0⟩ := p
      rw [hx] at h
      cases r0 with
      | nil =>
          injection h with h1
          subst h1
          rfl
      | cons t r => cases h

/-- Claim C2's core: when every character of the input is a digit, one of
the seven operator symbols, a parenthesis, or whitespace, a successful run
of `safe_eval_expr` is reproduced by the specification pipeline — some
spec-tokenizer derivation of the stripped input feeds a spec-grammar
derivation evaluating, with the spec's operator semantics, to the same
value. -/
theorem safe_eval_c2 {s : String} {v : Value}
    (hcl : ∀ c ∈ s.data, c2Char c = true)
    (h : safe_eval_expr s = .ok v) : specConsistent s v := by
  unfold safe_eval_expr at h
  by_cases he : (pyStrip s.data).isEmpty = true
  · rw [if_pos he] at h
    cases h
  · rw [if_neg he] at h
    have hclt : ∀ c ∈ pyStrip s.data, c2Char c = true :=
      fun c hc => hcl c (pyStrip_subset c hc)
    cases htok : pyTokenize (pyStrip s.data) with
    | error d => rw [htok] at h; cases h
    | ok toks =>
        simp only [htok] at h
        obtain ⟨hstk, hall⟩ := lexLoop_c2 _ _ _ hclt htok
        cases hp : pyParse toks with
        | error d => simp only [hp] at h; cases h
        | ok a =>
            simp only [hp] at h
            exact ⟨toks, hstk,
              (parserRefineAll (10 * toks.length + 10)).1 toks a [] hall
                (pyParse_ok_elim hp) v h⟩

/-- If tokenization succeeds but the parentheses are unbalanced, evaluation
fails as a syntax error (the parser's consumed prefix is always balanced and
a full parse consumes everything). -/
theorem safe_eval_unbalanced {s : String} {toks : List Tok}
    (htok : pyTokenize (pyStrip s.data) = .ok toks) (hbal : tokBal toks ≠ 0) :
    failsWithKind .syntaxError (safe_eval_expr s) = true := by
  unfold safe_eval_expr
  by_cases he : (pyStrip s.data).isEmpty = true
  · exfalso
    have hnil : pyStrip s.data = [] := by
      cases hh : pyStrip s.data with
      | nil => rfl
      | cons x t => rw [hh] at he; cases he
    rw [hnil] at htok
    have h0 : pyTokenize ([] : List Char) = .ok [] := rfl
    rw [h0] at htok
    injection htok with h1
    rw [← h1] at hbal
    exact hbal rfl
  · rw [if_neg he]
    simp only [htok]
    cases hp : pyParse toks with
    | error d => simp [hp, failsWithKind, EvalError.kind]
    | ok a => exact absurd (pyParse_ok_inv hp).1 hbal

/-- Division, floor division and modulo raise `ZeroDivisionError` on a zero
divisor (for the real-valued operands the model carries componentwise). -/
theorem zeroDivisor_fails (k : BinKind) (lv rv : Value)
    (hk : k = BinKind.div ∨ k = BinKind.floorDiv ∨ k = BinKind.mod)
    (hlv : lv ≠ .VComplex) (hz : isZeroValue rv = true) :
    ∃ m, applyBin k lv rv = .error (.zeroDivision m) := by
  have hlv' : (∃ x, lv.asArith = Value.VInt x) ∨ (∃ q, lv.asArith = Value.VFloat q) := by
    cases lv with
    | VBool b => exact Or.inl ⟨if b then 1 else 0, rfl⟩
    | VInt z => exact Or.inl ⟨z, rfl⟩
    | VFloat q => exact Or.inr ⟨q, rfl⟩
    | VComplex => exact absurd rfl hlv
  have hrv : rv.asArith = Value.VInt 0 ∨
      (∃ q : ℚ, rv.asArith = Value.VFloat q ∧ q.num = 0) := by
    cases rv with
    | VBool b =>
        cases b
        · exact Or.inl rfl
        · exact absurd hz (by decide)
    | VInt z =>
        simp only [isZeroValue, Value.asArith, decide_eq_true_eq] at hz
        rw [hz]
        exact Or.inl rfl
    | VFloat q =>
        simp only [isZeroValue, Value.asArith, decide_eq_true_eq] at hz
        exact Or.inr ⟨q, rfl, hz⟩
    | VComplex => exact absurd hz (by decide)
  rcases hk with rfl | rfl | rfl <;>
    simp only [applyBin] <;>
    rcases hlv' with ⟨x, hx⟩ | ⟨p, hp⟩ <;>
    rcases hrv with h0 | ⟨q, hqa, hqn⟩ <;>
    (first | rw [hx] | rw [hp]) <;>
    (first | rw [h0] | rw [hqa]) <;>
    all_goals
      simp only [pyDivOp, pyFloorDivOp, pyModOp, Value.toQ]
      exact ⟨_, by
        first
          | exact if_pos trivial
          | exact if_pos hqn
          | exact if_pos (show (qOfInt 0).num = 0 by decide)⟩

/-- Integer floor division computes the floor of the exact quotient. -/
theorem floorDiv_floor (a b : ℤ) (hb : b ≠ 0) :
    applyBin .floorDiv (.VInt a) (.VInt b) = .ok (.VInt ⌊(a : ℚ) / (b : ℚ)⌋) := by
  simp only [applyBin, Value.asArith, pyFloorDivOp]
  rw [if_neg hb, fdiv_eq_floor a b hb]

/-- A negative integer base raised to a fractional float exponent silently
produces a complex value. -/
theorem negBase_fracExp_complex (a : ℤ) (q : ℚ) (ha : a < 0) (hq : q.den ≠ 1) :
    applyBin .pow (.VInt a) (.VFloat q) = .ok .VComplex := by
  simp only [applyBin, Value.asArith, pyPowOp, Value.toQ]
  have hnum : (qOfInt a).num = a := by
    rw [qOfInt, Rat.mkRat_one]
    exact Rat.num_intCast a
  rw [if_neg (by rw [hnum]; omega)]
  have hlt : (qOfInt a).num < 0 := by
    rw [hnum]
    exact ha
  rw [if_pos (by rw [decide_eq_true hlt, decide_eq_true hq]; rfl)]

/-- With no earlier pattern rule firing, `chatbot_response` reaches the two
calculator rules. -/
theorem chatbot_calcBranch {s : String} (hE : earlierRuleFires (lowerOf s) = false) :
    chatbot_response s =
      (match calcCommand (lowerOf s) with
       | some e =>
           (match safe_eval_expr (String.mk e) with
            | .ok v => .fixed ("Result: " ++ renderValue v)
            | .error err => .fixed ("Calculator error: " ++ errMessage err))
       | none =>
           if mathLineCandidate (lowerOf s) then
             match safe_eval_expr (String.mk (caretExpand (lowerOf s))) with
             | .ok v => .fixed ("Result: " ++ renderValue v)
             | .error _ => lateRules (lowerOf s)
           else lateRules (lowerOf s)) := by
  simp only [earlierRuleFires, Bool.or_eq_false_iff] at hE
  obtain ⟨⟨⟨⟨⟨⟨⟨⟨⟨⟨h1, h2⟩, h3⟩, h4⟩, h5⟩, h6⟩, h7⟩, h8⟩, h9⟩, h10⟩, h11⟩ := hE
  simp only [chatbot_response]
  rw [if_neg (by simp [h1]), if_neg (by simp [h2]), if_neg (by simp [h3]),
    if_neg (by simp [h4]), if_neg (by simp [h5]), if_neg (by simp [h6]),
    if_neg (by simp [h7]), if_neg (by simp [h8]), if_neg (by simp [h9]),
    if_neg (by simp [h10, h11])]

/-- C1: the spec's character allow-list (whitespace, digits, point, operator
symbols, parentheses) is too narrow as stated — the counterexample below
exhibits an accepted input with an underscore — so the claim is corrected to
the allow-list the code actually enforces: whenever `safe_eval_expr` returns
a value, every character of the input outside `#`-comments is whitespace, a
digit, a point, an operator symbol, a parenthesis, or one of the extra
characters Python numeric literals and the keyword constants `True`/`False`
admit (underscore separators, exponent and radix markers, hex digits); and
the three spec probes `__import__('os')`, `a+1` and `1;2` are all rejected
with a syntax-kind or unsupported-construct-kind error, never a value. -/
theorem C1_amended :
    (∀ (s : String) (v : Value), safe_eval_expr s = .ok v →
      ∀ c ∈ commentStrip s.data, goodChar c = true) ∧
    failsSyntaxOrUnsupported (safe_eval_expr "__import__(\x27os\x27)") = true ∧
    failsSyntaxOrUnsupported (safe_eval_expr "a+1") = true ∧
    failsSyntaxOrUnsupported (safe_eval_expr "1;2") = true :=
  ⟨fun _ _ h => safe_eval_ok_chars h, by decide, by decide, by decide⟩

/-- C1, counterexample to the claim as stated: `1_0` contains an underscore,
which is outside the claimed character class, yet evaluation succeeds with
the integer `10` (Python digit-group separators lex fine). -/
theorem C1_spec_counterexample :
    ('_' ∈ "1_0".data ∧ c1ClaimChar '_' = false) ∧
    safe_eval_expr "1_0" = .ok (.VInt 10) := by decide

/-- C1, witness: the amended allow-list applied at the concrete accepted
input `1_0` and its underscore character. -/
theorem C1_witness : goodChar '_' = true :=
  C1_amended.1 "1_0" (.VInt 10) (by decide) '_' (by decide)

/-- C2: on strings drawn from digits, the seven operator symbols,
parentheses and whitespace, a successful evaluation agrees with the spec's
grammar and operator semantics (standard precedence and associativity), and
the three spec examples compute `14`, `512` (right-associative power) and
`-4` (power binds tighter than unary minus). -/
theorem C2_claim :
    (∀ (s : String) (v : Value), (∀ c ∈ s.data, c2Char c = true) →
      safe_eval_expr s = .ok v → specConsistent s v) ∧
    safe_eval_expr "2+3*4" = .ok (.VInt 14) ∧
    safe_eval_expr "2**3**2" = .ok (.VInt 512) ∧
    safe_eval_expr "-2**2" = .ok (.VInt (-4)) :=
  ⟨fun _ _ hc h => safe_eval_c2 hc h, by decide, by decide, by decide⟩

/-- C2, witness: the refinement applied at the concrete input `2+3*4`. -/
theorem C2_witness : specConsistent "2+3*4" (.VInt 14) :=
  C2_claim.1 "2+3*4" (.VInt 14) (by decide) (by decide)

/-- C3: applying division, floor division, or modulo to a zero divisor
raises a `ZeroDivisionError` (for any real-valued dividend), and the two
spec probes `1/0` and `5%0` fail with the division-by-zero kind. -/
theorem C3_claim :
    (∀ (k : BinKind) (lv rv : Value),
      (k = BinKind.div ∨ k = BinKind.floorDiv ∨ k = BinKind.mod) →
      lv ≠ .VComplex → isZeroValue rv = true →
      ∃ m, applyBin k lv rv = .error (.zeroDivision m)) ∧
    failsWithKind .divisionByZeroError (safe_eval_expr "1/0") = true ∧
    failsWithKind .divisionByZeroError (safe_eval_expr "5%0") = true :=
  ⟨fun k lv rv hk hlv hz => zeroDivisor_fails k lv rv hk hlv hz, by decide, by decide⟩

/-- C3, witness: the zero-divisor property applied at `1/0`'s operands. -/
theorem C3_witness :
    ∃ m, applyBin .div (.VInt 1) (.VInt 0) = .error (.zeroDivision m) :=
  C3_claim.1 .div (.VInt 1) (.VInt 0) (Or.inl rfl) (by decide) (by decide)

/-- C4: floor division rounds the quotient toward negative infinity — the
integer case computes the floor of the exact rational quotient — and the two
spec probes give `7//2 = 3` and `-7//2 = -4`. -/
theorem C4_claim :
    (∀ a b : ℤ, b ≠ 0 →
      applyBin .floorDiv (.VInt a) (.VInt b) = .ok (.VInt ⌊(a : ℚ) / (b : ℚ)⌋)) ∧
    safe_eval_expr "7//2" = .ok (.VInt 3) ∧
    safe_eval_expr "-7//2" = .ok (.VInt (-4)) :=
  ⟨fun a b hb => floorDiv_floor a b hb, by decide, by decide⟩

/-- C4, witness: the floor characterisation applied at `-7 // 2`. -/
theorem C4_witness :
    applyBin .floorDiv (.VInt (-7)) (.VInt 2) =
      .ok (.VInt ⌊((-7 : ℤ) : ℚ) / ((2 : ℤ) : ℚ)⌋) :=
  C4_claim.1 (-7) 2 (by decide)

/-- C5: an input that is empty or all whitespace strips to nothing and fails
with the empty-expression error; in particular the spec probes `""` and
`"   "`. -/
theorem C5_claim :
    (∀ s : String, (∀ c ∈ s.data, pyWsChar c = true) →
      failsWithKind .emptyExpressionError (safe_eval_expr s) = true) ∧
    safe_eval_expr "" = .error .emptyExpr ∧
    safe_eval_expr "   " = .error .emptyExpr :=
  ⟨fun s hws => by rw [safe_eval_all_ws hws]; decide, by decide, by decide⟩

/-- C5, witness: the all-whitespace property applied at `"   "`. -/
theorem C5_witness : failsWithKind .emptyExpressionError (safe_eval_expr "   ") = true :=
  C5_claim.1 "   " (by decide)

/-- C6: unbalanced parentheses (a tokenizable input whose parenthesis
weights do not sum to zero) always fail as a syntax error, since the
parser's consumed prefix is balanced and a complete parse consumes every
token; and the three spec probes `2+` (missing operand), `(1+2` and `)1+2(`
fail with the syntax-error kind. -/
theorem C6_claim :
    (∀ (s : String) (toks : List Tok),
      pyTokenize (pyStrip s.data) = .ok toks → tokBal toks ≠ 0 →
      failsWithKind .syntaxError (safe_eval_expr s) = true) ∧
    failsWithKind .syntaxError (safe_eval_expr "2+") = true ∧
    failsWithKind .syntaxError (safe_eval_expr "(1+2") = true ∧
    failsWithKind .syntaxError (safe_eval_expr ")1+2(") = true :=
  ⟨fun _ _ htok hbal => safe_eval_unbalanced htok hbal, by decide, by decide, by decide⟩

/-- C6, witness: the unbalanced-parenthesis property applied at `(1+2`. -/
theorem C6_witness : failsWithKind .syntaxError (safe_eval_expr "(1+2") = true :=
  C6_claim.1 "(1+2" [.lparen, .num (.intC 1), .op .add, .num (.intC 2)]
    (by decide) (by decide)

/-- C7: the spec demands a `DomainError` or a float NaN for a fractional
power of a negative base and forbids silently producing a complex value;
the code does the opposite — Python's `**` silently yields `complex` — so
the corrected claim records the actual policy: a negative base under a
fractional float exponent evaluates to a complex value (no error), both in
general and on the concrete input `(-1)**0.5`. -/
theorem C7_amended :
    applyBin .pow (.VInt (-1)) (.VFloat (mkRat 1 2)) = .ok .VComplex ∧
    safe_eval_expr "(-1)**0.5" = .ok .VComplex ∧
    (∀ (a : ℤ) (q : ℚ), a < 0 → q.den ≠ 1 →
      applyBin .pow (.VInt a) (.VFloat q) = .ok .VComplex) :=
  ⟨by decide, by decide, fun a q ha hq => negBase_fracExp_complex a q ha hq⟩

/-- C7, counterexample to the claim as stated: `(-1)**0.5` neither fails nor
returns a float — it returns the complex marker value. -/
theorem C7_spec_counterexample :
    safe_eval_expr "(-1)**0.5" = .ok .VComplex ∧
    (∀ e : EvalError, safe_eval_expr "(-1)**0.5" ≠ .error e) ∧
    (∀ q : ℚ, (Value.VComplex : Value) ≠ .VFloat q) := by
  refine ⟨by decide, ?_, fun q h => by cases h⟩
  intro e he
  rw [show safe_eval_expr "(-1)**0.5" = .ok .VComplex from by decide] at he
  cases he

/-- C7, witness: the complex-result property applied at base `-2` and
exponent `1/2`. -/
theorem C7_witness :
    applyBin .pow (.VInt (-2)) (.VFloat (mkRat 1 2)) = .ok .VComplex :=
  C7_amended.2.2 (-2) (mkRat 1 2) (by decide) (by decide)

/-- C8: the spec says every recognized calculation whose evaluation fails
answers `Calculator error: …`; that is true of `calc` commands, but a bare
numeric-looking line that fails evaluation silently falls through to the
later pattern rules (`except Exception: pass`), so the claim is corrected:
with no earlier rule firing, a `calc` command reports `Result: …` on
success and `Calculator error: …` on failure, while a bare math line
reports `Result: …` on success and delegates to the later rules on
failure. -/
theorem C8_amended :
    (∀ (s : String) (ex : List Char) (v : Value),
      earlierRuleFires (lowerOf s) = false → calcCommand (lowerOf s) = some ex →
      safe_eval_expr (String.mk ex) = .ok v →
      chatbot_response s = .fixed ("Result: " ++ renderValue v)) ∧
    (∀ (s : String) (ex : List Char) (e : EvalError),
      earlierRuleFires (lowerOf s) = false → calcCommand (lowerOf s) = some ex →
      safe_eval_expr (String.mk ex) = .error e →
      chatbot_response s = .fixed ("Calculator error: " ++ errMessage e)) ∧
    (∀ (s : String) (v : Value),
      earlierRuleFires (lowerOf s) = false → calcCommand (lowerOf s) = none →
      mathLineCandidate (lowerOf s) = true →
      safe_eval_expr (String.mk (caretExpand (lowerOf s))) = .ok v →
      chatbot_response s = .fixed ("Result: " ++ renderValue v)) ∧
    (∀ (s : String) (e : EvalError),
      earlierRuleFires (lowerOf s) = false → calcCommand (lowerOf s) = none →
      mathLineCandidate (lowerOf s) = true →
      safe_eval_expr (String.mk (caretExpand (lowerOf s))) = .error e →
      chatbot_response s = lateRules (lowerOf s)) := by
  refine ⟨?_, ?_, ?_, ?_⟩
  · intro s ex v hE hcalc heval
    rw [chatbot_calcBranch hE]
    simp only [hcalc, heval]
  · intro s ex e hE hcalc heval
    rw [chatbot_calcBranch hE]
    simp only [hcalc, heval]
  · intro s v hE hcalc hmath heval
    rw [chatbot_calcBranch hE]
    simp only [hcalc, hmath, heval, if_true]
  · intro s e hE hcalc hmath heval
    rw [chatbot_calcBranch hE]
    simp only [hcalc, hmath, heval, if_true]

/-- C8, counterexample to the claim as stated: `)1+2(` matches the bare
numeric-line class and its evaluation fails, yet the reply is a random
fallback suggestion, not a `Calculator error: …` message. -/
theorem C8_spec_counterexample :
    earlierRuleFires (lowerOf ")1+2(") = false ∧
    calcCommand (lowerOf ")1+2(") = none ∧
    mathLineCandidate (lowerOf ")1+2(") = true ∧
    failsWithKind .syntaxError
      (safe_eval_expr (String.mk (caretExpand (lowerOf ")1+2(")))) = true ∧
    chatbot_response ")1+2(" = .randomOf fallbackSuggestions ∧
    (∀ m : String, chatbot_response ")1+2(" ≠ .fixed ("Calculator error: " ++ m)) := by
  refine ⟨by decide, by decide, by decide, by decide, by decide, ?_⟩
  intro m h
  rw [show chatbot_response ")1+2(" = .randomOf fallbackSuggestions from by decide] at h
  cases h

/-- C8, witness: the calc-command error branch applied at `calc 1/0`. -/
theorem C8_witness :
    chatbot_response "calc 1/0" =
      .fixed ("Calculator error: " ++ errMessage (.zeroDivision "division by zero")) :=
  C8_amended.2.1 "calc 1/0" ['1', '/', '0'] (.zeroDivision "division by zero")
    (by decide) (by decide) (by decide)

/-- C9: evaluation is a pure function of the input string — the two runs of
the spec's evaluate-twice experiment are definitionally the same
computation, so they agree on every input. -/
theorem C9_claim : ∀ s : String, (evalTwice s).1 = (evalTwice s).2 :=
  fun _ => rfl

/-- C10: caret normalization applies only to bare numeric lines: the bare
line `2^3` is rewritten `^` → `**` and answers `Result: 8`, while
`calc 2^3` passes `2^3` through unsubstituted, `^` (bitwise xor) is not in
the operator allow-list, and the reply is the corresponding calculator
error, not a numeric result. -/
theorem C10_claim :
    chatbot_response "2^3" = .fixed "Result: 8" ∧
    caretExpand (lowerOf "2^3") = ['2', '*', '*', '3'] ∧
    calcCommand (lowerOf "calc 2^3") = some ['2', '^', '3'] ∧
    allowedBin .bitXor = false ∧
    chatbot_response "calc 2^3" =
      .fixed ("Calculator error: " ++
        errMessage (.binOpNotSupported (binClassName .bitXor))) := by
  refine ⟨by decide, by decide, by decide, by decide, by decide⟩
